import Mathlib

/-!
# code-snap: snapshot of a directory or file as one text file

A shallow embedding of `src/main.go` (the functions `main` and `generateTree`) together
with a model of the parts of the Go standard library and of the filesystem they call.

* Go strings are Lean strings.  The program only concatenates strings, compares a string
  with `"."` and counts the separator `/`, so nothing depends on the encoding.
* Paths are Unix paths: the separator is `/` and there are no volume names.
* The filesystem is a tree of directories and files without symbolic links, so `os.Stat`
  and `os.Lstat` agree.  It changes only through the program's own `os.Create` and write,
  and a write to a file that was created does not fail.
* `filepath.Walk` visits the entries of a directory in the order of its listing, which
  stands for the sorted list of names that `readDirNames` returns.
* `os.ReadFile(path)` inside the walk reads the entry the walk is visiting.
-/

namespace CodeSnap

/-! ## Paths: `path/filepath` and `strings` on Unix -/

/-- The elements of a path: the pieces between separators (`strings.Split(p, "/")`). -/
def splitSep : List Char → List (List Char)
  | [] => [[]]
  | c :: cs =>
    if c = '/' then [] :: splitSep cs
    else
      match splitSep cs with
      | [] => [[c]]
      | e :: es => (c :: e) :: es

/-- Elements joined by single separators (`strings.Join(es, "/")`). -/
def joinSep : List (List Char) → List Char
  | [] => []
  | [e] => e
  | e :: es => e ++ '/' :: joinSep es

/-- Whether a path starts with a separator (`os.IsPathSeparator(path[0])`). -/
def rooted (p : List Char) : Bool := p.head? = some '/'

/-- One round of the loop of `filepath.Clean`, on the stack of elements written so far
(top first): empty and `.` elements are dropped, `..` removes the element before it,
is kept at the start of a relative path and is dropped at the start of a rooted one. -/
def cleanStep (isRooted : Bool) (st : List (List Char)) (e : List Char) : List (List Char) :=
  if e = [] ∨ e = ['.'] then st
  else if e = ['.', '.'] then
    match st with
    | [] => if isRooted then [] else [e]
    | top :: below => if top = ['.', '.'] then e :: st else below
  else e :: st

/-- The elements `filepath.Clean` keeps, in order. -/
def cleanElems (p : List Char) : List (List Char) :=
  ((splitSep p).foldl (cleanStep (rooted p)) []).reverse

/-- Model of `filepath.Clean`: the shortest path equivalent to `path` by purely lexical
processing; the empty result of a relative path is `"."`. -/
def Clean (path : String) : String :=
  let out := joinSep (cleanElems path.data)
  if rooted path.data then ⟨'/' :: out⟩
  else if out = [] then "." else ⟨out⟩

/-- Model of `filepath.Join` for two elements: empty leading elements are ignored and
the result is cleaned. -/
def Join (dir name : String) : String :=
  if dir ≠ "" then Clean (dir ++ "/" ++ name)
  else if name ≠ "" then Clean name
  else ""

/-- Model of `filepath.Base`: the last element of the path, trailing separators removed. -/
def Base (path : String) : String :=
  if path = "" then "."
  else
    let last := ((path.data.reverse.dropWhile (· = '/')).takeWhile (· ≠ '/')).reverse
    if last = [] then "/" else ⟨last⟩

/-- Model of `strings.Count(s, string(os.PathSeparator))`: occurrences of one character. -/
def Count (s : String) (sep : Char) : Nat := s.data.count sep

/-- Model of `strings.Repeat`. -/
def Repeat (s : String) (count : Nat) : String := ⟨(List.replicate count s.data).flatten⟩

/-- Errors of the operating system and of `filepath.Rel`. -/
inductive Err
  | notExist
  | notDir
  | permission
  | isDir
  | rel
  deriving DecidableEq, Repr

/-- The elements the loop of `filepath.Rel` steps through: a separator that ends the
string does not start a further element. -/
def relElems (p : List Char) : List (List Char) :=
  let es := splitSep p
  if es.getLast? = some [] then es.dropLast else es

/-- The loop of `filepath.Rel` and what follows it, on the elements of the two cleaned
paths: common leading elements are skipped; when the base is used up the rest of the
target is the result; when base elements are left the result goes up once for each of
them before going down, and a base element `..` that differs from the target is an
error. -/
def relLoop : List (List Char) → List (List Char) → Option (List Char)
  | b :: bs, t :: ts =>
    if t = b then relLoop bs ts
    else if b = ['.', '.'] then none
    else some (joinSep (List.replicate (b :: bs).length ['.', '.'] ++ t :: ts))
  | [], ts => some (joinSep ts)
  | b :: bs, [] => some (joinSep (List.replicate (b :: bs).length ['.', '.']))

/-- Model of `filepath.Rel`. -/
def Rel (basepath targpath : String) : Except Err String :=
  let base := Clean basepath
  let targ := Clean targpath
  if targ = base then .ok "."
  else
    let base := if base = "." then "" else base
    if rooted base.data ≠ rooted targ.data then .error .rel
    else
      match relLoop (relElems base.data) (relElems targ.data) with
      | none => .error .rel
      | some r => .ok ⟨r⟩

/-! ## The filesystem -/

/-- The listing of a directory, entry by entry: a file with its content (`none` when the
file cannot be read), a subdirectory with its own listing, or a subdirectory that cannot
be listed. -/
inductive Entries
  | nil
  | file (name : String) (content : Option String) (rest : Entries)
  | dir (name : String) (children : Entries) (rest : Entries)
  | locked (name : String) (rest : Entries)
  deriving DecidableEq, Repr

/-- What a path names: the `os.FileInfo` of an entry together with what reading or
listing it yields. -/
inductive Node
  | file (content : Option String)
  | dir (children : Entries)
  | locked
  deriving DecidableEq, Repr

/-- Model of `info.IsDir()`. -/
def Node.IsDir : Node → Bool
  | .file _ => false
  | .dir _ => true
  | .locked => true

/-- The entry of a listing with the given name. -/
def Entries.find (name : String) : Entries → Option Node
  | .nil => none
  | .file n c rest => if n = name then some (.file c) else rest.find name
  | .dir n kids rest => if n = name then some (.dir kids) else rest.find name
  | .locked n rest => if n = name then some .locked else rest.find name

/-- The node reached from `node` by descending through the named entries. -/
def nodeAt : Node → List String → Option Node
  | node, [] => some node
  | .dir es, n :: ns =>
    match es.find n with
    | some child => nodeAt child ns
    | none => none
  | _, _ :: _ => none

/-- The state of the filesystem as the process sees it: the listing of `/` and the
working directory as the names leading to it from `/`. -/
structure World where
  root : Entries
  cwd : List String
  deriving DecidableEq, Repr

/-- The listing of the directory at a location. -/
def lookupDir (root : Entries) (loc : List String) : Except Err Entries :=
  match nodeAt (.dir root) loc with
  | some (.dir es) => .ok es
  | some .locked => .error .permission
  | some (.file _) => .error .notDir
  | none => .error .notExist

/-- One element of path resolution: the location so far has to be a directory; an empty
element and `.` stay in it, `..` goes to its parent, a name goes to the entry. -/
def resolveStep (root : Entries) (acc : Except Err (List String)) (e : List Char) :
    Except Err (List String) :=
  match acc with
  | .error err => .error err
  | .ok loc =>
    match lookupDir root loc with
    | .error err => .error err
    | .ok es =>
      if e = [] ∨ e = ['.'] then .ok loc
      else if e = ['.', '.'] then .ok loc.dropLast
      else
        match es.find ⟨e⟩ with
        | some _ => .ok (loc ++ [⟨e⟩])
        | none => .error .notExist

/-- Resolution of the elements `es` of `path`, from `/` or from the working directory. -/
def resolveFrom (w : World) (path : String) (es : List (List Char)) : Except Err (List String) :=
  es.foldl (resolveStep w.root) (.ok (if rooted path.data then [] else w.cwd))

/-- Model of `os.Stat` (and of `os.Lstat`, there being no symbolic links). -/
def Stat (w : World) (path : String) : Except Err Node :=
  if path = "" then .error .notExist
  else
    match resolveFrom w path (splitSep path.data) with
    | .error err => .error err
    | .ok loc =>
      match nodeAt (.dir w.root) loc with
      | some node => .ok node
      | none => .error .notExist

/-- Model of `os.ReadFile` on a node. -/
def Node.read : Node → Except Err String
  | .file (some c) => .ok c
  | .file none => .error .permission
  | .dir _ => .error .isDir
  | .locked => .error .isDir

/-- Model of `os.ReadFile`. -/
def ReadFile (w : World) (path : String) : Except Err String :=
  match Stat w path with
  | .error err => .error err
  | .ok node => node.read

/-- Order of names in a listing: lexicographic by code unit. -/
def ltName : List Char → List Char → Bool
  | _, [] => false
  | [], _ :: _ => true
  | a :: as, b :: bs => a.toNat < b.toNat || (a = b && ltName as bs)

/-- The first file named `name` gets the content `content`. -/
def Entries.overwrite (name content : String) : Entries → Entries
  | .nil => .nil
  | .file n c rest =>
    if n = name then .file n (some content) rest else .file n c (rest.overwrite name content)
  | .dir n kids rest =>
    if n = name then .dir n kids rest else .dir n kids (rest.overwrite name content)
  | .locked n rest =>
    if n = name then .locked n rest else .locked n (rest.overwrite name content)

/-- A new empty file `name` enters the listing before the first greater name, which
keeps a sorted listing sorted. -/
def Entries.insert (name : String) : Entries → Entries
  | .nil => .file name (some "") .nil
  | .file n c rest =>
    if ltName name.data n.data then .file name (some "") (.file n c rest)
    else .file n c (rest.insert name)
  | .dir n kids rest =>
    if ltName name.data n.data then .file name (some "") (.dir n kids rest)
    else .dir n kids (rest.insert name)
  | .locked n rest =>
    if ltName name.data n.data then .file name (some "") (.locked n rest)
    else .locked n (rest.insert name)

/-- The listing of the directory at a location is replaced by its image under `f`. -/
def Entries.update (f : Entries → Entries) : List String → Entries → Entries
  | [], es => f es
  | _ :: _, .nil => .nil
  | n :: ns, .file m c rest =>
    if m = n then .file m c rest else .file m c (Entries.update f (n :: ns) rest)
  | n :: ns, .dir m kids rest =>
    if m = n then .dir m (Entries.update f ns kids) rest
    else .dir m kids (Entries.update f (n :: ns) rest)
  | n :: ns, .locked m rest =>
    if m = n then .locked m rest else .locked m (Entries.update f (n :: ns) rest)

/-- An open file: the directory it lies in and its name there. -/
structure File where
  dir : List String
  name : String
  deriving DecidableEq, Repr

/-- Model of `os.Create`: the directory part of the path has to resolve to a directory;
an existing file is truncated, a missing one is created empty; a directory, or a file
that cannot be opened, is an error. -/
def Create (w : World) (name : String) : Except Err (World × File) :=
  if name = "" then .error .notExist
  else
    let es := splitSep name.data
    match resolveFrom w name es.dropLast with
    | .error err => .error err
    | .ok loc =>
      match lookupDir w.root loc with
      | .error err => .error err
      | .ok listing =>
        let last := es.getLast?.getD []
        if last = [] ∨ last = ['.'] ∨ last = ['.', '.'] then .error .isDir
        else
          match listing.find ⟨last⟩ with
          | some (.file (some _)) =>
            .ok (⟨w.root.update (Entries.overwrite ⟨last⟩ "") loc, w.cwd⟩, ⟨loc, ⟨last⟩⟩)
          | some (.file none) => .error .permission
          | some (.dir _) => .error .isDir
          | some .locked => .error .isDir
          | none => .ok (⟨w.root.update (Entries.insert ⟨last⟩) loc, w.cwd⟩, ⟨loc, ⟨last⟩⟩)

/-- Model of `io.WriteString` on a file just created: the file, empty until then, holds
the string afterwards.  Writes do not fail in this model. -/
def WriteString (w : World) (file : File) (s : String) : World :=
  ⟨w.root.update (Entries.overwrite file.name s) file.dir, w.cwd⟩

/-! ## `filepath.Walk` -/

/-- A `filepath.WalkFunc` over a state `σ`, the variables its closure writes to. -/
abbrev WalkFunc (σ : Type) := σ → String → Option Node → Option Err → σ × Option Err

/-- The loop of `walk` over the names of a directory `path`: each entry is visited under
the name `Join(path, name)`, a subdirectory before the entries that follow it; the first
error ends the walk. -/
def walkEntries {σ : Type} (fn : WalkFunc σ) (path : String) : Entries → σ → σ × Option Err
  | .nil, s => (s, none)
  | .file name c rest, s =>
    match fn s (Join path name) (some (.file c)) none with
    | (s1, some err) => (s1, some err)
    | (s1, none) => walkEntries fn path rest s1
  | .dir name kids rest, s =>
    match fn s (Join path name) (some (.dir kids)) none with
    | (s1, some err) => (s1, some err)
    | (s1, none) =>
      match walkEntries fn (Join path name) kids s1 with
      | (s2, some err) => (s2, some err)
      | (s2, none) => walkEntries fn path rest s2
  | .locked name rest, s =>
    match fn s (Join path name) (some .locked) (some .permission) with
    | (s1, some err) => (s1, some err)
    | (s1, none) => walkEntries fn path rest s1

/-- Model of `walk`: a file is visited; a directory is visited and then walked, or
visited with the error of its listing. -/
def walk {σ : Type} (fn : WalkFunc σ) (path : String) (info : Node) (s : σ) : σ × Option Err :=
  match info with
  | .file c => fn s path (some (.file c)) none
  | .dir kids =>
    match fn s path (some (.dir kids)) none with
    | (s1, some err) => (s1, some err)
    | (s1, none) => walkEntries fn path kids s1
  | .locked => fn s path (some .locked) (some .permission)

/-- Model of `filepath.Walk`. -/
def Walk {σ : Type} (w : World) (root : String) (fn : WalkFunc σ) (s : σ) : σ × Option Err :=
  match Stat w root with
  | .error err => fn s root none (some err)
  | .ok info => walk fn root info s

/-! ## The program -/

/-- The function literal `generateTree` passes to `filepath.Walk` (main.go, 96-115); the
state is `builder`. -/
def treeFn (root : String) : WalkFunc String := fun builder path info err =>
  match err with
  | some e => (builder, some e)
  | none =>
    match Rel root path with
    | .error e => (builder, some e)
    | .ok relPath =>
      let depth := Count relPath '/'
      if relPath = "." then (builder ++ (root ++ "\n"), none)
      else
        let pre := Repeat "  " depth ++ "- "
        let pre := if (info.map Node.IsDir).getD false then pre ++ "[DIR] " else pre
        (builder ++ (pre ++ Base path ++ "\n"), none)

/-- The function `generateTree` (main.go, 94-117). -/
def generateTree (w : World) (root : String) : String × Option Err :=
  Walk w root (treeFn root) ""

/-- The function literal `main` passes to `filepath.Walk` (main.go, 50-62); the state is
`content`.  `os.ReadFile(path)` reads the entry being visited. -/
def contentFn : WalkFunc String := fun content path info err =>
  match err with
  | some e => (content, some e)
  | none =>
    if !(info.map Node.IsDir).getD false then
      match (info.map Node.read).getD (.error .notExist) with
      | .error e => (content, some e)
      | .ok fileContent => (content ++ ("--- " ++ path ++ " ---\n" ++ fileContent ++ "\n\n"), none)
    else (content, none)

/-- The input path (main.go, 19-22): the first positional argument, `.` without one. -/
def inputPath (args : List String) : String :=
  match args with
  | [] => "."
  | a :: _ => a

/-- What the program prints. -/
inductive Message
  | error (e : Err)
  | errorGeneratingTree (e : Err)
  | errorWalkingDirectory (e : Err)
  | errorReadingFile (e : Err)
  | errorCreatingOutputFile (e : Err)
  | snapshotSavedTo (path : String)
  deriving DecidableEq, Repr

/-- The end of a run: the filesystem, the exit code and the line printed. -/
structure Result where
  world : World
  exit : Nat
  stdout : Message
  deriving DecidableEq, Repr

/-- The function `main` (main.go, 12-91), from the parsed flags `-o` and `-tree` and the
positional arguments. -/
def main (w : World) (outputFile : String) (includeTree : Bool) (args : List String) : Result :=
  let inputPath := inputPath args
  match Stat w inputPath with
  | .error err => ⟨w, 1, .error err⟩
  | .ok info =>
    let content := ""
    let tree : Except Err String :=
      if includeTree && info.IsDir then
        let content := content ++ "Directory Tree:\n"
        match generateTree w inputPath with
        | (_, some err) => .error err
        | (tree, none) => .ok (content ++ tree ++ "\n\n")
      else .ok content
    match tree with
    | .error err => ⟨w, 1, .errorGeneratingTree err⟩
    | .ok content =>
      let content := content ++ "File Contents:\n"
      let body : Except Message String :=
        if info.IsDir then
          match Walk w inputPath contentFn content with
          | (_, some err) => .error (.errorWalkingDirectory err)
          | (content, none) => .ok content
        else
          match ReadFile w inputPath with
          | .error err => .error (.errorReadingFile err)
          | .ok fileContent =>
            .ok (content ++ ("--- " ++ inputPath ++ " ---\n" ++ fileContent ++ "\n\n"))
      match body with
      | .error msg => ⟨w, 1, msg⟩
      | .ok content =>
        match Create w outputFile with
        | .error err => ⟨w, 1, .errorCreatingOutputFile err⟩
        | .ok (w1, file) => ⟨WriteString w1 file content, 0, .snapshotSavedTo outputFile⟩


/-! ## Definitions used in the statements and proofs -/

/-- A name a directory entry can have: not empty, without separator, neither `.` nor
`..`. -/
def validName (n : List Char) : Bool :=
  decide (n ≠ []) && decide ('/' ∉ n) && decide (n ≠ ['.']) && decide (n ≠ ['.', '.'])

/-- The stack of elements `filepath.Clean` has written at its end, top first. -/
def cleanStack (p : List Char) : List (List Char) :=
  (splitSep p).foldl (cleanStep (rooted p)) []

/-- The text `filepath.Clean` returns for the elements it kept. -/
def cleanData (r : Bool) (es : List (List Char)) : List Char :=
  if r then '/' :: joinSep es
  else if joinSep es = [] then ['.'] else joinSep es

/-- The shape of a stack of cleaned elements (top first): proper elements, with `..` only
at the bottom of a relative path. -/
def Good (r : Bool) : List (List Char) → Prop
  | [] => True
  | e :: st =>
    Good r st ∧ e ≠ [] ∧ e ≠ ['.'] ∧ '/' ∉ e ∧
      (e = ['.', '.'] → r = false ∧ ∀ t ∈ st.head?, t = ['.', '.'])

/-- The path `path` lies below `root` by the elements `names`: it cleans to the elements
of `root` followed by `names`. -/
def Shape (root : String) (names : List (List Char)) (path : String) : Prop :=
  path ≠ "" ∧ rooted path.data = rooted root.data ∧
    cleanStack path.data = names.reverse ++ cleanStack root.data

/-- Every directory of the listing can be listed. -/
def Entries.listable : Entries → Bool
  | .nil => true
  | .file _ _ rest => rest.listable
  | .dir _ kids rest => kids.listable && rest.listable
  | .locked _ _ => false

/-- Every directory of the listing can be listed and every file read. -/
def Entries.readable : Entries → Bool
  | .nil => true
  | .file _ c rest => c.isSome && rest.readable
  | .dir _ kids rest => kids.readable && rest.readable
  | .locked _ _ => false

/-- Every entry of the listing has a name a directory entry can have. -/
def Entries.wellNamed : Entries → Bool
  | .nil => true
  | .file n _ rest => validName n.data && rest.wellNamed
  | .dir n kids rest => validName n.data && kids.wellNamed && rest.wellNamed
  | .locked n rest => validName n.data && rest.wellNamed

/-- Number of files in a listing, those of subdirectories included. -/
def Entries.countFiles : Entries → Nat
  | .nil => 0
  | .file _ _ rest => 1 + rest.countFiles
  | .dir _ kids rest => kids.countFiles + rest.countFiles
  | .locked _ rest => rest.countFiles

/-- Number of subdirectories in a listing, those of subdirectories included. -/
def Entries.countDirs : Entries → Nat
  | .nil => 0
  | .file _ _ rest => rest.countDirs
  | .dir _ kids rest => 1 + kids.countDirs + rest.countDirs
  | .locked _ rest => 1 + rest.countDirs

/-- One entry as the walk meets it: the path the walk reports, the number of directory
levels below the root (1 for an entry of the root), the name, the kind and, for a file,
the content. -/
structure Visit where
  path : String
  level : Nat
  name : String
  isDir : Bool
  content : String
  deriving DecidableEq, Repr

/-- The entries of a listing in pre-order: each entry, then, for a directory, the entries
below it, then the entries that follow it. -/
def visits (path : String) (level : Nat) : Entries → List Visit
  | .nil => []
  | .file n c rest => ⟨Join path n, level, n, false, c.getD ""⟩ :: visits path level rest
  | .dir n kids rest =>
    ⟨Join path n, level, n, true, ""⟩ ::
      (visits (Join path n) (level + 1) kids ++ visits path level rest)
  | .locked n rest => ⟨Join path n, level, n, true, ""⟩ :: visits path level rest

/-- The non-directory entries among the visits, as pairs of path and content. -/
def filesOf (vs : List Visit) : List (String × String) :=
  (vs.filter (fun v => !v.isDir)).map (fun v => (v.path, v.content))

/-- Concatenation of a list of strings. -/
def concat : List String → String
  | [] => ""
  | s :: ss => s ++ concat ss

/-- A run of spaces. -/
def spaces (n : Nat) : String := ⟨List.replicate n ' '⟩

/-- A line of the tree: the indentation, the marker, the tag of a directory, the name. -/
def entryLine (indent : Nat) (isDir : Bool) (name : String) : String :=
  spaces indent ++ "- " ++ (if isDir then "[DIR] " else "") ++ name ++ "\n"

/-- A content block: the header with the path, the content, an empty line. -/
def block (f : String × String) : String := "--- " ++ f.1 ++ " ---\n" ++ f.2 ++ "\n\n"

/-- No name in the listing contains a newline. -/
def Entries.newlineFree : Entries → Bool
  | .nil => true
  | .file n _ rest => decide ('\n' ∉ n.data) && rest.newlineFree
  | .dir n kids rest => decide ('\n' ∉ n.data) && kids.newlineFree && rest.newlineFree
  | .locked n rest => decide ('\n' ∉ n.data) && rest.newlineFree

/-- Whether a text contains the start of a block header after an empty line. -/
def hasMarker : List Char → Bool
  | [] => false
  | c :: cs => "\n\n--- ".data.isPrefixOf (c :: cs) || hasMarker cs

/-- Paths and contents a contents section can be split back into: no path contains a
newline and no content contains an empty line followed by the start of a header. -/
def splittable (fs : List (String × String)) : Bool :=
  fs.all (fun f => decide ('\n' ∉ f.1.data) && !hasMarker f.2.data)

/-- The directory `proj` of the scenario: `a.txt` holding "hi" and `sub` with `b.txt`
holding "yo". -/
def projTree : Entries :=
  .file "a.txt" (some "hi") (.dir "sub" (.file "b.txt" (some "yo") .nil) .nil)

/-- The scenario: `proj` lies in the working directory `/`. -/
def projWorld : World := ⟨.dir "proj" projTree .nil, []⟩

/-- The directory `proj` listed in the other order. -/
def projTreeRev : Entries :=
  .dir "sub" (.file "b.txt" (some "yo") .nil) (.file "a.txt" (some "hi") .nil)

/-- The scenario with the directory listed in the other order. -/
def projWorldRev : World := ⟨.dir "proj" projTreeRev .nil, []⟩

/-- A change `h` of the listing `es` that keeps every entry, and every directory as it
is: what creating or writing a file does to the listing it lies in. -/
def Keeps (h : Entries → Entries) (es : Entries) : Prop :=
  ∀ n node, es.find n = some node →
    (node.IsDir = true → (h es).find n = some node) ∧ ((h es).find n).isSome = true

/-- Whether `os.Create` succeeds on a path. -/
def creatable (w : World) (name : String) : Bool :=
  match Create w name with
  | .ok _ => true
  | .error _ => false

/-- A working directory that holds the file `notes.txt`. -/
def notesWorld : World := ⟨.file "notes.txt" (some "hello\n") .nil, []⟩

/-- A directory `d` whose only file has a newline in its name. -/
def newlineTree : Entries := .file "a\nb" (some "") .nil

/-- The world of `newlineTree`. -/
def newlineWorld : World := ⟨.dir "d" newlineTree .nil, []⟩

/-- A directory `d` whose only file `a` holds text that looks like the end of a block
and the start of another. -/
def markerTree : Entries := .file "a" (some "x\n\n--- d/b ---\ny") .nil

/-- The world of `markerTree`. -/
def markerWorld : World := ⟨.dir "d" markerTree .nil, []⟩

/-- A directory `d` with two files `a` and `b`. -/
def twoFilesTree : Entries := .file "a" (some "x") (.file "b" (some "y") .nil)

/-- The world of `twoFilesTree`. -/
def twoFilesWorld : World := ⟨.dir "d" twoFilesTree .nil, []⟩

/-- An empty working directory. -/
def emptyWorld : World := ⟨.nil, []⟩

/-- The text `main` has built when it reaches `os.Create` (main.go, 25-75), or the
message it exits with before; `main_eq_snapshot` ties it to `main`. -/
def snapshot (w : World) (includeTree : Bool) (p : String) : Except Message String :=
  match Stat w p with
  | .error err => .error (.error err)
  | .ok info =>
    let tree : Except Err String :=
      if includeTree && info.IsDir then
        match generateTree w p with
        | (_, some err) => .error err
        | (tree, none) => .ok ("" ++ "Directory Tree:\n" ++ tree ++ "\n\n")
      else .ok ""
    match tree with
    | .error err => .error (.errorGeneratingTree err)
    | .ok content =>
      if info.IsDir then
        match Walk w p contentFn (content ++ "File Contents:\n") with
        | (_, some err) => .error (.errorWalkingDirectory err)
        | (content, none) => .ok content
      else
        match ReadFile w p with
        | .error err => .error (.errorReadingFile err)
        | .ok fileContent =>
          .ok (content ++ "File Contents:\n" ++ ("--- " ++ p ++ " ---\n" ++ fileContent ++ "\n\n"))

/-- The name of the first entry of a listing. -/
def Entries.firstName : Entries → Option String
  | .nil => none
  | .file n _ _ => some n
  | .dir n _ _ => some n
  | .locked n _ => some n

/-- Whether `n` comes before the first entry of a listing. -/
def Entries.startsAfter (n : String) (es : Entries) : Bool :=
  match es.firstName with
  | none => true
  | some m => ltName n.data m.data

/-- Whether every directory is listed in the order of its names, the order in which
`filepath.Walk` visits the entries of a directory. -/
def Entries.sorted : Entries → Bool
  | .nil => true
  | .file n _ rest => rest.startsAfter n && rest.sorted
  | .dir n kids rest => kids.sorted && rest.startsAfter n && rest.sorted
  | .locked n rest => rest.startsAfter n && rest.sorted

/-- Whether the location `target` is the location `loc` or lies below it. -/
def within : List String → List String → Bool
  | [], _ => true
  | _ :: _, [] => false
  | a :: as, b :: bs => decide (a = b) && within as bs

/-- Whether the output file is the input file itself or lies inside the input directory:
the location of the file `os.Create` opens is the location of the input path or lies
below it. -/
def outputInsideInput (w : World) (p out : String) : Bool :=
  match resolveFrom w p (splitSep p.data), Create w out with
  | .ok loc, .ok (_, f) => within loc (f.dir ++ [f.name])
  | _, _ => false

/-- The scenario with a further file next to `proj`. -/
def projWorldExtra : World := ⟨.dir "proj" projTree (.file "z.txt" (some "other") .nil), []⟩

/-- A directory `proj` with a file that cannot be read and a subdirectory that cannot be
listed. -/
def lockedWorld : World := ⟨.dir "proj" (.file "a.txt" none (.locked "sub" .nil)) .nil, []⟩

/-! ## Lemmas on path elements -/

theorem splitSep_ne_nil (p : List Char) : splitSep p ≠ [] := by
  cases p with
  | nil => simp [splitSep]
  | cons c cs =>
    simp only [splitSep]
    split
    · simp
    · split <;> simp

theorem splitSep_append_sep (a b : List Char) :
    splitSep (a ++ '/' :: b) = splitSep a ++ splitSep b := by
  induction a with
  | nil => simp [splitSep]
  | cons c a ih =>
    rw [List.cons_append]
    simp only [splitSep]
    split
    · simp [ih]
    · rw [ih]
      cases h : splitSep a with
      | nil => exact absurd h (splitSep_ne_nil a)
      | cons e es => simp

theorem splitSep_noSep (n : List Char) (h : '/' ∉ n) : splitSep n = [n] := by
  induction n with
  | nil => simp [splitSep]
  | cons c n ih =>
    simp only [List.mem_cons, not_or] at h
    have hc : c ≠ '/' := fun e => h.1 e.symm
    simp [splitSep, hc, ih h.2]

theorem noSep_of_mem_splitSep (p : List Char) : ∀ e ∈ splitSep p, '/' ∉ e := by
  induction p with
  | nil => simp [splitSep]
  | cons c cs ih =>
    simp only [splitSep]
    split
    · intro e he
      simp only [List.mem_cons] at he
      rcases he with rfl | he
      · simp
      · exact ih e he
    · rename_i hc
      cases h : splitSep cs with
      | nil => exact absurd h (splitSep_ne_nil cs)
      | cons e es =>
        rw [h] at ih
        intro x hx
        simp only [List.mem_cons] at hx
        rcases hx with rfl | hx
        · simp only [List.mem_cons, not_or]
          exact ⟨fun e' => hc e'.symm, ih e (by simp)⟩
        · exact ih x (by simp [hx])

theorem splitSep_joinSep (es : List (List Char)) (hne : es ≠ [])
    (h : ∀ e ∈ es, '/' ∉ e) : splitSep (joinSep es) = es := by
  induction es with
  | nil => exact absurd rfl hne
  | cons e es ih =>
    cases es with
    | nil => simpa [joinSep] using splitSep_noSep e (h e (by simp))
    | cons e2 es =>
      simp only [joinSep]
      rw [splitSep_append_sep, splitSep_noSep e (h e (by simp)),
        ih (by simp) (fun x hx => h x (by simp [hx]))]
      simp


/-! ## Lemmas on `Clean` and `Join` -/

theorem validName_iff (n : List Char) :
    validName n = true ↔ n ≠ [] ∧ '/' ∉ n ∧ n ≠ ['.'] ∧ n ≠ ['.', '.'] := by
  simp [validName, and_assoc]

theorem cleanElems_eq (p : List Char) : cleanElems p = (cleanStack p).reverse := rfl

theorem Clean_data (p : String) : (Clean p).data = cleanData (rooted p.data) (cleanElems p.data) := by
  unfold Clean cleanData
  simp only
  split
  · rfl
  · split <;> rfl

theorem cleanStep_good (r : Bool) (st : List (List Char)) (e : List Char)
    (hst : Good r st) (he : '/' ∉ e) : Good r (cleanStep r st e) := by
  unfold cleanStep
  split
  · exact hst
  · rename_i h1
    simp only [not_or] at h1
    split
    · rename_i h2
      cases st with
      | nil =>
        cases r with
        | true => simp [Good]
        | false => simp [Good, h2]
      | cons top below =>
        simp only
        split
        · rename_i h3
          refine ⟨hst, h1.1, h1.2, he, fun _ => ⟨?_, ?_⟩⟩
          · exact (hst.2.2.2.2 h3).1
          · simp [h3]
        · exact hst.1
    · rename_i h2
      exact ⟨hst, h1.1, h1.2, he, fun h => absurd h h2⟩

theorem foldl_cleanStep_good (r : Bool) (es : List (List Char)) :
    ∀ st, Good r st → (∀ e ∈ es, '/' ∉ e) → Good r (es.foldl (cleanStep r) st) := by
  induction es with
  | nil => intro st h _; exact h
  | cons e es ih =>
    intro st h hes
    simp only [List.foldl_cons]
    exact ih _ (cleanStep_good r st e h (hes e (by simp))) (fun x hx => hes x (by simp [hx]))

theorem cleanStack_good (p : List Char) : Good (rooted p) (cleanStack p) :=
  foldl_cleanStep_good _ _ [] trivial (noSep_of_mem_splitSep p)

theorem good_mem (r : Bool) (st : List (List Char)) (h : Good r st) :
    ∀ e ∈ st, e ≠ [] ∧ e ≠ ['.'] ∧ '/' ∉ e := by
  induction st with
  | nil => simp
  | cons e st ih =>
    intro x hx
    simp only [List.mem_cons] at hx
    rcases hx with rfl | hx
    · exact ⟨h.2.1, h.2.2.1, h.2.2.2.1⟩
    · exact ih h.1 x hx

theorem cleanStep_push (r : Bool) (st : List (List Char)) (e : List Char)
    (h : Good r (e :: st)) : cleanStep r st e = e :: st := by
  unfold cleanStep
  have h1 : ¬ (e = [] ∨ e = ['.']) := by
    simp only [not_or]; exact ⟨h.2.1, h.2.2.1⟩
  rw [if_neg h1]
  split
  · rename_i h2
    have h3 := h.2.2.2.2 h2
    cases st with
    | nil => simp [h3.1]
    | cons top below =>
      have : top = ['.', '.'] := h3.2 top (by simp)
      simp [this]
  · rfl

theorem foldl_reverse_good (r : Bool) (st : List (List Char)) (h : Good r st) :
    st.reverse.foldl (cleanStep r) [] = st := by
  induction st with
  | nil => rfl
  | cons e st ih =>
    rw [List.reverse_cons, List.foldl_append, ih h.1]
    simp only [List.foldl_cons, List.foldl_nil]
    exact cleanStep_push r st e h

theorem joinSep_cons_cons (e e2 : List Char) (es : List (List Char)) :
    joinSep (e :: e2 :: es) = e ++ '/' :: joinSep (e2 :: es) := rfl

theorem joinSep_eq_nil (es : List (List Char)) (h : ∀ e ∈ es, e ≠ []) :
    joinSep es = [] ↔ es = [] := by
  cases es with
  | nil => simp [joinSep]
  | cons e es =>
    cases es with
    | nil => simpa [joinSep] using h e (by simp)
    | cons e2 es => simp [joinSep]

theorem joinSep_head (es : List (List Char)) (hne : es ≠ [])
    (h : ∀ e ∈ es, e ≠ [] ∧ '/' ∉ e) : rooted (joinSep es) = false := by
  cases es with
  | nil => exact absurd rfl hne
  | cons e es =>
    have he := h e (by simp)
    cases e with
    | nil => exact absurd rfl he.1
    | cons c cs =>
      have hc : c ≠ '/' := by
        intro hc; apply he.2; simp [hc]
      cases es with
      | nil => simp [joinSep, rooted, hc]
      | cons e2 es => simp [joinSep, rooted, hc]

theorem cleanData_ne_nil (r : Bool) (es : List (List Char)) : cleanData r es ≠ [] := by
  unfold cleanData
  split
  · simp
  · split
    · simp
    · assumption

theorem rooted_cleanData (r : Bool) (st : List (List Char)) (h : Good r st) :
    rooted (cleanData r st.reverse) = r := by
  have hm : ∀ e ∈ st.reverse, e ≠ [] ∧ '/' ∉ e := by
    intro e he
    have := good_mem r st h e (by simpa using he)
    exact ⟨this.1, this.2.2⟩
  unfold cleanData
  cases r with
  | true => simp [rooted]
  | false =>
    simp only [Bool.false_eq_true, if_false]
    split
    · simp [rooted]
    · rename_i hj
      apply joinSep_head _ _ hm
      intro hnil
      apply hj
      rw [hnil]; rfl

theorem splitSep_cleanData_foldl (r : Bool) (st : List (List Char)) (h : Good r st) :
    (splitSep (cleanData r st.reverse)).foldl (cleanStep r) [] = st := by
  have hm : ∀ e ∈ st.reverse, '/' ∉ e := by
    intro e he
    exact (good_mem r st h e (by simpa using he)).2.2
  have hm2 : ∀ e ∈ st.reverse, e ≠ [] := by
    intro e he
    exact (good_mem r st h e (by simpa using he)).1
  by_cases hst : st = []
  · subst hst
    cases r <;> simp [cleanData, joinSep, splitSep, cleanStep]
  · have hrev : st.reverse ≠ [] := by simpa using hst
    have hj : joinSep st.reverse ≠ [] := by
      rw [Ne, joinSep_eq_nil _ hm2]; exact hrev
    cases r with
    | true =>
      have : cleanData true st.reverse = '/' :: joinSep st.reverse := by simp [cleanData]
      rw [this]
      simp only [splitSep, if_true, List.foldl_cons]
      rw [splitSep_joinSep _ hrev hm]
      have : cleanStep true [] [] = [] := by simp [cleanStep]
      rw [this]
      exact foldl_reverse_good true st h
    | false =>
      have : cleanData false st.reverse = joinSep st.reverse := by simp [cleanData, hj]
      rw [this, splitSep_joinSep _ hrev hm]
      exact foldl_reverse_good false st h

theorem cleanStack_cleanData (r : Bool) (st : List (List Char)) (h : Good r st) :
    cleanStack (cleanData r st.reverse) = st := by
  unfold cleanStack
  rw [rooted_cleanData r st h]
  exact splitSep_cleanData_foldl r st h

theorem string_ne_empty (s : String) : s ≠ "" ↔ s.data ≠ [] := by
  constructor
  · intro h hd
    apply h
    exact String.ext hd
  · intro h hs
    apply h
    rw [hs]

theorem rooted_append (a b : List Char) (h : a ≠ []) : rooted (a ++ b) = rooted a := by
  cases a with
  | nil => exact absurd rfl h
  | cons c cs => simp [rooted]

theorem good_push (r : Bool) (st : List (List Char)) (n : List Char)
    (h : Good r st) (hn : validName n = true) : Good r (n :: st) := by
  rw [validName_iff] at hn
  exact ⟨h, hn.1, hn.2.2.1, hn.2.1, fun e => absurd e hn.2.2.2⟩

theorem Join_data (q : String) (n : List Char) (hq : q ≠ "") (hn : validName n = true) :
    (Join q ⟨n⟩).data = cleanData (rooted q.data) (n :: cleanStack q.data).reverse := by
  have hqd : q.data ≠ [] := (string_ne_empty q).1 hq
  unfold Join
  rw [if_pos hq, Clean_data]
  have hd : (q ++ "/" ++ (⟨n⟩ : String)).data = q.data ++ '/' :: n := by
    simp [String.data_append]
  rw [hd]
  have hr : rooted (q.data ++ '/' :: n) = rooted q.data := rooted_append _ _ hqd
  rw [hr, cleanElems_eq]
  congr 2
  unfold cleanStack
  rw [hr, splitSep_append_sep, List.foldl_append,
    splitSep_noSep n ((validName_iff n).1 hn).2.1]
  simp only [List.foldl_cons, List.foldl_nil]
  exact cleanStep_push _ _ _ (good_push _ _ _ (cleanStack_good q.data) hn)

theorem shape_root (root : String) (h : root ≠ "") : Shape root [] root :=
  ⟨h, rfl, by simp⟩

theorem shape_join (root path : String) (names : List (List Char)) (n : List Char)
    (h : Shape root names path) (hn : validName n = true) :
    Shape root (names ++ [n]) (Join path ⟨n⟩) := by
  obtain ⟨h1, h2, h3⟩ := h
  have hg : Good (rooted path.data) (n :: cleanStack path.data) :=
    good_push _ _ _ (cleanStack_good path.data) hn
  have hd := Join_data path n h1 hn
  refine ⟨?_, ?_, ?_⟩
  · rw [string_ne_empty, hd]
    exact cleanData_ne_nil _ _
  · rw [hd, rooted_cleanData _ _ hg, h2]
  · rw [hd, cleanStack_cleanData _ _ hg, h3]
    simp


/-! ## Lemmas on `Rel`, `Base` and `Count` below a root -/

theorem relLoop_append (xs ys : List (List Char)) :
    relLoop xs (xs ++ ys) = some (joinSep ys) := by
  induction xs with
  | nil => cases ys <;> simp [relLoop]
  | cons b bs ih => simp [relLoop, ih]

theorem relElems_joinSep (es : List (List Char)) (hne : es ≠ [])
    (h : ∀ e ∈ es, e ≠ [] ∧ '/' ∉ e) : relElems (joinSep es) = es := by
  unfold relElems
  simp only
  rw [splitSep_joinSep es hne (fun e he => (h e he).2)]
  have : es.getLast? ≠ some [] := by
    intro hl
    have hm := List.mem_of_getLast?_eq_some hl
    exact (h _ hm).1 rfl
  simp [this]

theorem relElems_sep_joinSep (es : List (List Char))
    (h : ∀ e ∈ es, e ≠ [] ∧ '/' ∉ e) : relElems ('/' :: joinSep es) = [] :: es := by
  by_cases hne : es = []
  · subst hne
    simp [relElems, joinSep, splitSep]
  · unfold relElems
    simp only [splitSep, if_true]
    rw [splitSep_joinSep es hne (fun e he => (h e he).2)]
    have : ([] :: es).getLast? ≠ some [] := by
      intro hl
      obtain ⟨e, es', rfl⟩ := List.exists_cons_of_ne_nil hne
      rw [List.getLast?_cons_cons] at hl
      have hm := List.mem_of_getLast?_eq_some hl
      exact (h _ hm).1 rfl
    simp [this]

theorem good_append (r : Bool) (st : List (List Char)) (names : List (List Char))
    (h : Good r st) (hn : ∀ n ∈ names, validName n = true) : Good r (names.reverse ++ st) := by
  induction names using List.reverseRecOn with
  | nil => simpa using h
  | append_singleton ns n ih =>
    rw [List.reverse_append]
    simp only [List.reverse_cons, List.reverse_nil, List.nil_append, List.singleton_append,
      List.cons_append]
    exact good_push _ _ _ (ih (fun x hx => hn x (by simp [hx]))) (hn n (by simp))

theorem joinSep_ne_dot (names : List (List Char)) (hne : names ≠ [])
    (hn : ∀ n ∈ names, validName n = true) : joinSep names ≠ ['.'] := by
  intro h
  have hs := splitSep_joinSep names hne (fun e he => ((validName_iff e).1 (hn e he)).2.1)
  rw [h] at hs
  have : names = [['.']] := by rw [← hs]; simp [splitSep]
  have hv := hn ['.'] (by simp [this])
  simp [validName] at hv

theorem count_joinSep (names : List (List Char)) (hne : names ≠ [])
    (hn : ∀ n ∈ names, '/' ∉ n) : (joinSep names).count '/' = names.length - 1 := by
  induction names with
  | nil => exact absurd rfl hne
  | cons e es ih =>
    cases es with
    | nil => simpa [joinSep] using List.count_eq_zero_of_not_mem (hn e (by simp))
    | cons e2 es =>
      rw [joinSep_cons_cons, List.count_append, List.count_cons,
        ih (by simp) (fun x hx => hn x (by simp [hx]))]
      rw [List.count_eq_zero_of_not_mem (hn e (by simp))]
      simp

theorem Clean_data_of_shape (root path : String) (names : List (List Char))
    (h : Shape root names path) :
    (Clean path).data = cleanData (rooted root.data) ((cleanStack root.data).reverse ++ names) := by
  rw [Clean_data, cleanElems_eq, h.2.1, h.2.2]
  simp

theorem Rel_of_shape (root path : String) (names : List (List Char))
    (h : Shape root names path) (hne : names ≠ [])
    (hn : ∀ n ∈ names, validName n = true) : Rel root path = .ok ⟨joinSep names⟩ := by
  have hg0 : Good (rooted root.data) (cleanStack root.data) := cleanStack_good _
  have hg1 : Good (rooted root.data) (names.reverse ++ cleanStack root.data) :=
    good_append _ _ _ hg0 hn
  have hb : (Clean root).data = cleanData (rooted root.data) (cleanStack root.data).reverse := by
    rw [Clean_data, cleanElems_eq]
  have ht : (Clean path).data =
      cleanData (rooted root.data) (names.reverse ++ cleanStack root.data).reverse := by
    rw [Clean_data_of_shape root path names h]; simp
  have hne1 : Clean path ≠ Clean root := by
    intro he
    have h1 := cleanStack_cleanData _ _ hg1
    have h0 := cleanStack_cleanData _ _ hg0
    rw [← ht, he, hb, h0] at h1
    have : (cleanStack root.data).length = (names.reverse ++ cleanStack root.data).length := by
      rw [← h1]
    simp only [List.length_append, List.length_reverse] at this
    have : names.length = 0 := by omega
    exact hne (List.length_eq_zero.1 this)
  have hmem0 : ∀ e ∈ (cleanStack root.data).reverse, e ≠ [] ∧ '/' ∉ e := by
    intro e he
    have := good_mem _ _ hg0 e (by simpa using he)
    exact ⟨this.1, this.2.2⟩
  have hmem1 : ∀ e ∈ (cleanStack root.data).reverse ++ names, e ≠ [] ∧ '/' ∉ e := by
    intro e he
    have := good_mem _ _ hg1 e (by
      simp only [List.mem_append, List.mem_reverse] at he ⊢
      exact he.symm)
    exact ⟨this.1, this.2.2⟩
  have hne2 : (cleanStack root.data).reverse ++ names ≠ [] := by
    simp [hne]
  have hj1 : joinSep ((cleanStack root.data).reverse ++ names) ≠ [] := by
    rw [Ne, joinSep_eq_nil _ (fun e he => (hmem1 e he).1)]; exact hne2
  have ht2 : (Clean path).data =
      cleanData (rooted root.data) ((cleanStack root.data).reverse ++ names) :=
    Clean_data_of_shape root path names h
  unfold Rel
  simp only
  rw [if_neg hne1]
  cases hr : rooted root.data with
  | true =>
    rw [hr] at hb ht2
    have hb2 : (Clean root).data = '/' :: joinSep (cleanStack root.data).reverse := by
      rw [hb]; simp [cleanData]
    have ht3 : (Clean path).data = '/' :: joinSep ((cleanStack root.data).reverse ++ names) := by
      rw [ht2]; simp [cleanData]
    have hdot : Clean root ≠ "." := by
      intro he
      rw [he] at hb2
      simp at hb2
    rw [if_neg hdot, hb2, ht3]
    simp only [rooted, List.head?_cons, ne_eq, not_true_eq_false, if_false]
    rw [relElems_sep_joinSep _ hmem0, relElems_sep_joinSep _ hmem1]
    rw [← List.cons_append, relLoop_append]
  | false =>
    rw [hr] at hb ht2
    have ht3 : (Clean path).data = joinSep ((cleanStack root.data).reverse ++ names) := by
      rw [ht2]; simp [cleanData, hj1]
    have hrt : rooted (joinSep ((cleanStack root.data).reverse ++ names)) = false :=
      joinSep_head _ hne2 hmem1
    by_cases h0 : cleanStack root.data = []
    · have hdot : Clean root = "." := by
        apply String.ext
        rw [hb, h0]
        simp [cleanData, joinSep]
      rw [if_pos hdot, ht3, hrt]
      simp only [h0, List.reverse_nil, List.nil_append] at hmem1 hne2 ⊢
      rw [relElems_joinSep _ hne hmem1]
      have : relElems ("" : String).data = [] := by simp [relElems, splitSep]
      rw [this]
      simp [rooted, relLoop]
    · have hrev : (cleanStack root.data).reverse ≠ [] := by simpa using h0
      have hj0 : joinSep (cleanStack root.data).reverse ≠ [] := by
        rw [Ne, joinSep_eq_nil _ (fun e he => (hmem0 e he).1)]; exact hrev
      have hb2 : (Clean root).data = joinSep (cleanStack root.data).reverse := by
        rw [hb]; simp [cleanData, hj0]
      have hdot : Clean root ≠ "." := by
        intro he
        rw [he] at hb2
        have hs := splitSep_joinSep _ hrev (fun e he => (hmem0 e he).2)
        rw [← hb2] at hs
        have h1 : (cleanStack root.data).reverse = [['.']] := by
          rw [← hs]; simp [splitSep]
        have h2 := good_mem _ _ hg0 ['.'] (by
          have : ['.'] ∈ (cleanStack root.data).reverse := by rw [h1]; simp
          simpa using this)
        exact h2.2.1 rfl
      rw [if_neg hdot, hb2, ht3, hrt, joinSep_head _ hrev hmem0]
      rw [relElems_joinSep _ hrev hmem0, relElems_joinSep _ hne2 hmem1, relLoop_append]
      simp

theorem joinSep_append_singleton (es : List (List Char)) (n : List Char) (hne : es ≠ []) :
    joinSep (es ++ [n]) = joinSep es ++ '/' :: n := by
  induction es with
  | nil => exact absurd rfl hne
  | cons e es ih =>
    cases es with
    | nil => simp [joinSep]
    | cons e2 es =>
      have := ih (by simp)
      simp only [List.cons_append] at this ⊢
      rw [joinSep_cons_cons, this, joinSep_cons_cons]
      simp

theorem cleanData_snoc (r : Bool) (es : List (List Char)) (n : List Char) (hn : n ≠ []) :
    ∃ x : List Char, cleanData r (es ++ [n]) = x ++ n ∧ (x = [] ∨ ∃ y, x = y ++ ['/']) := by
  by_cases hes : es = []
  · subst hes
    cases r with
    | true => exact ⟨['/'], by simp [cleanData, joinSep], Or.inr ⟨[], rfl⟩⟩
    | false => exact ⟨[], by simp [cleanData, joinSep, hn], Or.inl rfl⟩
  · have hj := joinSep_append_singleton es n hes
    cases r with
    | true =>
      refine ⟨'/' :: joinSep es ++ ['/'], ?_, Or.inr ⟨'/' :: joinSep es, rfl⟩⟩
      simp [cleanData, hj]
    | false =>
      refine ⟨joinSep es ++ ['/'], ?_, Or.inr ⟨joinSep es, rfl⟩⟩
      simp [cleanData, hj]

theorem Base_of_snoc (p : String) (x n : List Char) (hp : p.data = x ++ n)
    (hx : x = [] ∨ ∃ y, x = y ++ ['/']) (hn : validName n = true) : Base p = ⟨n⟩ := by
  rw [validName_iff] at hn
  have hpne : p ≠ "" := by
    rw [string_ne_empty, hp]
    simp [hn.1]
  have hrev : n.reverse ≠ [] := by simpa using hn.1
  obtain ⟨c, cs, hc⟩ := List.exists_cons_of_ne_nil hrev
  have hall : ∀ a ∈ n.reverse, (decide (a ≠ '/')) = true := by
    intro a ha
    simp only [List.mem_reverse] at ha
    simp only [ne_eq, decide_not, Bool.not_eq_true', decide_eq_false_iff_not]
    intro h; rw [h] at ha; exact hn.2.1 ha
  have hcne : c ≠ '/' := by
    have := hall c (by rw [hc]; simp)
    simpa using this
  unfold Base
  rw [if_neg hpne]
  simp only [hp, List.reverse_append]
  have hdrop : List.dropWhile (fun x => decide (x = '/')) (n.reverse ++ x.reverse)
      = n.reverse ++ x.reverse := by
    rw [hc]
    simp [List.dropWhile, hcne]
  rw [hdrop]
  have htake : List.takeWhile (fun x => decide (x ≠ '/')) (n.reverse ++ x.reverse)
      = n.reverse := by
    rw [List.takeWhile_append_of_pos hall]
    rcases hx with rfl | ⟨y, rfl⟩
    · simp
    · simp
  rw [htake]
  simp [hn.1]

theorem Base_join (q : String) (n : List Char) (hq : q ≠ "") (hn : validName n = true) :
    Base (Join q ⟨n⟩) = ⟨n⟩ := by
  have hd := Join_data q n hq hn
  rw [List.reverse_cons] at hd
  obtain ⟨x, hx, hx2⟩ := cleanData_snoc (rooted q.data) (cleanStack q.data).reverse n
    ((validName_iff n).1 hn).1
  rw [hx] at hd
  exact Base_of_snoc _ x n hd hx2 hn

/-! ## The two walks -/

theorem concat_append (xs ys : List String) : concat (xs ++ ys) = concat xs ++ concat ys := by
  induction xs with
  | nil => simp [concat]
  | cons x xs ih => simp [concat, ih, String.append_assoc]

theorem Repeat_two_spaces (k : Nat) : Repeat "  " k = spaces (2 * k) := by
  unfold Repeat spaces
  congr 1
  induction k with
  | zero => rfl
  | succ k ih =>
    rw [List.replicate_succ, List.flatten_cons, ih]
    have : 2 * (k + 1) = (2 * k + 1) + 1 := by omega
    rw [this, List.replicate_succ, List.replicate_succ]
    rfl

theorem treeFn_entry (root path : String) (names : List (List Char)) (n : String)
    (node : Node) (builder : String)
    (h : Shape root names path) (hn : ∀ x ∈ names, validName x = true)
    (hv : validName n.data = true) :
    treeFn root builder (Join path n) (some node) none
      = (builder ++ entryLine (2 * names.length) node.IsDir n, none) := by
  have hsh : Shape root (names ++ [n.data]) (Join path n) := shape_join root path names n.data h hv
  have hn2 : ∀ x ∈ names ++ [n.data], validName x = true := by
    intro x hx
    simp only [List.mem_append, List.mem_singleton] at hx
    rcases hx with hx | rfl
    · exact hn x hx
    · exact hv
  have hne : names ++ [n.data] ≠ [] := by simp
  have hrel := Rel_of_shape root (Join path n) (names ++ [n.data]) hsh hne hn2
  have hdot : (⟨joinSep (names ++ [n.data])⟩ : String) ≠ "." := by
    intro he
    have := congrArg String.data he
    exact joinSep_ne_dot _ hne hn2 this
  have hcount : Count ⟨joinSep (names ++ [n.data])⟩ '/' = names.length := by
    unfold Count
    rw [count_joinSep _ hne (fun x hx => ((validName_iff x).1 (hn2 x hx)).2.1)]
    simp
  have hbase : Base (Join path n) = n := Base_join path n.data h.1 hv
  unfold treeFn
  simp only [hrel, hdot, if_false, hcount, hbase, Option.map_some', Option.getD_some,
    Repeat_two_spaces]
  unfold entryLine
  cases node <;> simp [Node.IsDir, String.append_assoc]

theorem walkEntries_treeFn (root : String) (es : Entries) :
    ∀ (path : String) (names : List (List Char)) (builder : String),
      es.listable = true → es.wellNamed = true → Shape root names path →
      (∀ x ∈ names, validName x = true) →
      walkEntries (treeFn root) path es builder =
        (builder ++ concat ((visits path (names.length + 1) es).map
          (fun v => entryLine (2 * (v.level - 1)) v.isDir v.name)), none) := by
  induction es with
  | nil => intro path names builder _ _ _ _; simp [walkEntries, visits, concat]
  | file n c rest ih =>
    intro path names builder hl hw hs hn
    simp only [Entries.listable] at hl
    simp only [Entries.wellNamed, Bool.and_eq_true] at hw
    simp only [walkEntries, treeFn_entry root path names n _ builder hs hn hw.1]
    rw [ih path names _ hl hw.2 hs hn]
    simp [visits, concat, Node.IsDir, String.append_assoc]
  | dir n kids rest ihk ihr =>
    intro path names builder hl hw hs hn
    simp only [Entries.listable, Bool.and_eq_true] at hl
    simp only [Entries.wellNamed, Bool.and_eq_true] at hw
    have hsh : Shape root (names ++ [n.data]) (Join path n) :=
      shape_join root path names n.data hs hw.1.1
    have hn2 : ∀ x ∈ names ++ [n.data], validName x = true := by
      intro x hx
      simp only [List.mem_append, List.mem_singleton] at hx
      rcases hx with hx | rfl
      · exact hn x hx
      · exact hw.1.1
    simp only [walkEntries, treeFn_entry root path names n _ builder hs hn hw.1.1]
    rw [ihk (Join path n) (names ++ [n.data]) _ hl.1 hw.1.2 hsh hn2]
    simp only
    rw [ihr path names _ hl.2 hw.2 hs hn]
    simp [visits, concat, concat_append, Node.IsDir, String.append_assoc]
  | locked n rest _ =>
    intro path names builder hl
    simp [Entries.listable] at hl

theorem contentFn_file (content path c : String) :
    contentFn content path (some (.file (some c))) none
      = (content ++ block (path, c), none) := by
  simp [contentFn, Node.IsDir, Node.read, block]

theorem contentFn_dir (content path : String) (kids : Entries) :
    contentFn content path (some (.dir kids)) none = (content, none) := by
  simp [contentFn, Node.IsDir]

theorem walkEntries_contentFn (es : Entries) :
    ∀ (path : String) (level : Nat) (content : String), es.readable = true →
      walkEntries contentFn path es content =
        (content ++ concat ((filesOf (visits path level es)).map block), none) := by
  induction es with
  | nil => intro path level content _; simp [walkEntries, visits, filesOf, concat]
  | file n c rest ih =>
    intro path level content hr
    simp only [Entries.readable, Bool.and_eq_true] at hr
    obtain ⟨c, rfl⟩ := Option.isSome_iff_exists.1 hr.1
    simp only [walkEntries, contentFn_file]
    rw [ih path level _ hr.2]
    simp [visits, filesOf, concat, String.append_assoc]
  | dir n kids rest ihk ihr =>
    intro path level content hr
    simp only [Entries.readable, Bool.and_eq_true] at hr
    simp only [walkEntries, contentFn_dir]
    rw [ihk (Join path n) (level + 1) _ hr.1]
    simp only
    rw [ihr path level _ hr.2]
    simp [visits, filesOf, concat, concat_append, String.append_assoc]
  | locked n rest _ =>
    intro path level content hr
    simp [Entries.readable] at hr

theorem Stat_ne_empty (w : World) (p : String) (node : Node) (h : Stat w p = .ok node) :
    p ≠ "" := by
  intro hp
  subst hp
  simp [Stat] at h

theorem Rel_self (root : String) : Rel root root = .ok "." := by
  simp [Rel]

theorem readable_listable (es : Entries) (h : es.readable = true) : es.listable = true := by
  induction es with
  | nil => rfl
  | file n c rest ih =>
    simp only [Entries.readable, Bool.and_eq_true] at h
    simpa [Entries.listable] using ih h.2
  | dir n kids rest ihk ihr =>
    simp only [Entries.readable, Bool.and_eq_true] at h
    simp [Entries.listable, ihk h.1, ihr h.2]
  | locked n rest _ => simp [Entries.readable] at h

theorem generateTree_dir (w : World) (root : String) (t : Entries)
    (hs : Stat w root = .ok (.dir t)) (hl : t.listable = true) (hw : t.wellNamed = true) :
    generateTree w root =
      (root ++ "\n" ++ concat ((visits root 1 t).map
        (fun v => entryLine (2 * (v.level - 1)) v.isDir v.name)), none) := by
  have hne := Stat_ne_empty w root _ hs
  unfold generateTree Walk
  rw [hs]
  simp only [walk]
  have h0 : treeFn root "" root (some (.dir t)) none = ("" ++ (root ++ "\n"), none) := by
    simp [treeFn, Rel_self]
  rw [h0]
  simp only
  rw [walkEntries_treeFn root t root [] _ hl hw (shape_root root hne) (by simp)]
  simp [String.append_assoc]

theorem contentWalk_dir (w : World) (p : String) (t : Entries) (content : String)
    (hs : Stat w p = .ok (.dir t)) (hr : t.readable = true) :
    Walk w p contentFn content =
      (content ++ concat ((filesOf (visits p 1 t)).map block), none) := by
  unfold Walk
  rw [hs]
  simp only [walk, contentFn_dir]
  exact walkEntries_contentFn t p 1 content hr

/-! ## The run as a whole -/

theorem main_file (w : World) (outputFile p : String) (rest : List String) (includeTree : Bool)
    (c : String) (hs : Stat w p = .ok (.file (some c))) :
    main w outputFile includeTree (p :: rest) =
      match Create w outputFile with
      | .error err => ⟨w, 1, .errorCreatingOutputFile err⟩
      | .ok (w1, file) =>
        ⟨WriteString w1 file ("File Contents:\n" ++ block (p, c)), 0, .snapshotSavedTo outputFile⟩ := by
  unfold main
  simp only [inputPath, hs, Node.IsDir, Bool.and_false, ReadFile, Node.read, block]
  simp

theorem main_dir (w : World) (outputFile p : String) (rest : List String) (includeTree : Bool)
    (t : Entries) (hs : Stat w p = .ok (.dir t)) (hr : t.readable = true)
    (hw : t.wellNamed = true) :
    main w outputFile includeTree (p :: rest) =
      match Create w outputFile with
      | .error err => ⟨w, 1, .errorCreatingOutputFile err⟩
      | .ok (w1, file) =>
        ⟨WriteString w1 file
          ((if includeTree then "Directory Tree:\n" ++ (generateTree w p).1 ++ "\n\n" else "")
            ++ ("File Contents:\n" ++ concat ((filesOf (visits p 1 t)).map block))),
          0, .snapshotSavedTo outputFile⟩ := by
  have hg := generateTree_dir w p t hs (readable_listable t hr) hw
  unfold main
  simp only [inputPath, hs, Node.IsDir, Bool.and_true]
  cases includeTree with
  | false =>
    simp only [Bool.false_eq_true, if_false]
    rw [contentWalk_dir w p t _ hs hr]
    simp [String.append_assoc]
  | true =>
    simp only [if_true, hg]
    rw [contentWalk_dir w p t _ hs hr]
    simp only [String.append_assoc, String.empty_append]

/-! ## Creating and writing a file -/

theorem find_overwrite_ne (name s n : String) (es : Entries) (h : n ≠ name) :
    (es.overwrite name s).find n = es.find n := by
  induction es with
  | nil => rfl
  | file m c rest ih =>
    simp only [Entries.overwrite]
    split
    · rename_i hm
      have : m ≠ n := fun e => h (by rw [← e, hm])
      simp [Entries.find, this]
    · simp [Entries.find, ih]
  | dir m k rest _ ih =>
    simp only [Entries.overwrite]
    split
    · rfl
    · simp [Entries.find, ih]
  | locked m rest ih =>
    simp only [Entries.overwrite]
    split
    · rfl
    · simp [Entries.find, ih]

theorem find_overwrite_self (name s : String) (es : Entries) :
    (es.overwrite name s).find name =
      match es.find name with
      | some (.file _) => some (.file (some s))
      | other => other := by
  induction es with
  | nil => rfl
  | file m c rest ih =>
    simp only [Entries.overwrite]
    split
    · rename_i hm; simp [Entries.find, hm]
    · rename_i hm; simp [Entries.find, hm, ih]
  | dir m k rest _ ih =>
    simp only [Entries.overwrite]
    split
    · rename_i hm; simp [Entries.find, hm]
    · rename_i hm; simp [Entries.find, hm, ih]
  | locked m rest ih =>
    simp only [Entries.overwrite]
    split
    · rename_i hm; simp [Entries.find, hm]
    · rename_i hm; simp [Entries.find, hm, ih]

theorem find_insert_ne (name n : String) (es : Entries) (h : n ≠ name) :
    (es.insert name).find n = es.find n := by
  have h2 : name ≠ n := fun e => h e.symm
  induction es with
  | nil => simp [Entries.insert, Entries.find, h2]
  | file m c rest ih =>
    simp only [Entries.insert]
    split
    · simp [Entries.find, h2]
    · simp [Entries.find, ih]
  | dir m k rest _ ih =>
    simp only [Entries.insert]
    split
    · simp [Entries.find, h2]
    · simp [Entries.find, ih]
  | locked m rest ih =>
    simp only [Entries.insert]
    split
    · simp [Entries.find, h2]
    · simp [Entries.find, ih]

theorem find_insert_self (name : String) (es : Entries) (h : es.find name = none) :
    (es.insert name).find name = some (.file (some "")) := by
  induction es with
  | nil => simp [Entries.insert, Entries.find]
  | file m c rest ih =>
    simp only [Entries.find] at h
    split at h
    · simp at h
    · rename_i hm
      simp only [Entries.insert]
      split
      · simp [Entries.find]
      · simp [Entries.find, hm, ih h]
  | dir m k rest _ ih =>
    simp only [Entries.find] at h
    split at h
    · simp at h
    · rename_i hm
      simp only [Entries.insert]
      split
      · simp [Entries.find]
      · simp [Entries.find, hm, ih h]
  | locked m rest ih =>
    simp only [Entries.find] at h
    split at h
    · simp at h
    · rename_i hm
      simp only [Entries.insert]
      split
      · simp [Entries.find]
      · simp [Entries.find, hm, ih h]

theorem overwrite_overwrite (name s t : String) (es : Entries) :
    (es.overwrite name t).overwrite name s = es.overwrite name s := by
  induction es with
  | nil => rfl
  | file m c rest ih =>
    simp only [Entries.overwrite]
    split
    · rename_i hm; simp [Entries.overwrite, hm]
    · rename_i hm; simp [Entries.overwrite, hm, ih]
  | dir m k rest _ ih =>
    simp only [Entries.overwrite]
    split
    · rename_i hm; simp [Entries.overwrite, hm]
    · rename_i hm; simp [Entries.overwrite, hm, ih]
  | locked m rest ih =>
    simp only [Entries.overwrite]
    split
    · rename_i hm; simp [Entries.overwrite, hm]
    · rename_i hm; simp [Entries.overwrite, hm, ih]

theorem keeps_overwrite (name s : String) (es : Entries) :
    Keeps (Entries.overwrite name s) es := by
  intro n node hn
  by_cases h : n = name
  · subst h
    rw [find_overwrite_self, hn]
    cases node <;> simp [Node.IsDir]
  · rw [find_overwrite_ne name s n es h, hn]
    simp

theorem keeps_insert (name : String) (es : Entries) (h : es.find name = none) :
    Keeps (Entries.insert name) es := by
  intro n node hn
  have hne : n ≠ name := by
    intro e; rw [e, h] at hn; simp at hn
  rw [find_insert_ne name n es hne, hn]
  simp

theorem keeps_comp (g h : Entries → Entries) (es : Entries)
    (hh : Keeps h es) (hg : Keeps g (h es)) : Keeps (g ∘ h) es := by
  intro n node hn
  have h1 := hh n node hn
  constructor
  · intro hd
    have h2 := h1.1 hd
    exact (hg n node h2).1 hd
  · obtain ⟨node2, h2⟩ := Option.isSome_iff_exists.1 h1.2
    exact (hg n node2 h2).2

theorem update_update (g h : Entries → Entries) (es : Entries) :
    ∀ loc, Entries.update g loc (Entries.update h loc es) = Entries.update (g ∘ h) loc es := by
  induction es with
  | nil => intro loc; cases loc <;> simp [Entries.update]
  | file m c rest ih =>
    intro loc
    cases loc with
    | nil => simp [Entries.update]
    | cons n ns =>
      simp only [Entries.update]
      split
      · rename_i hm; simp [Entries.update, hm]
      · rename_i hm; simp [Entries.update, hm, ih]
  | dir m k rest ihk ihr =>
    intro loc
    cases loc with
    | nil => simp [Entries.update]
    | cons n ns =>
      simp only [Entries.update]
      split
      · rename_i hm; simp [Entries.update, hm, ihk]
      · rename_i hm; simp [Entries.update, hm, ihr]
  | locked m rest ih =>
    intro loc
    cases loc with
    | nil => simp [Entries.update]
    | cons n ns =>
      simp only [Entries.update]
      split
      · rename_i hm; simp [Entries.update, hm]
      · rename_i hm; simp [Entries.update, hm, ih]

theorem find_update_ne (h : Entries → Entries) (n0 : String) (ns0 : List String) (n : String)
    (es : Entries) (hne : n ≠ n0) : (Entries.update h (n0 :: ns0) es).find n = es.find n := by
  induction es with
  | nil => rfl
  | file m c rest ih =>
    simp only [Entries.update]
    split
    · rfl
    · simp [Entries.find, ih]
  | dir m k rest _ ih =>
    simp only [Entries.update]
    split
    · rename_i hm
      have : m ≠ n := fun e => hne (by rw [← e, hm])
      simp [Entries.find, this]
    · simp [Entries.find, ih]
  | locked m rest ih =>
    simp only [Entries.update]
    split
    · rfl
    · simp [Entries.find, ih]

theorem find_update_self (h : Entries → Entries) (n0 : String) (ns0 : List String)
    (es : Entries) :
    (Entries.update h (n0 :: ns0) es).find n0 =
      match es.find n0 with
      | some (.dir k) => some (.dir (Entries.update h ns0 k))
      | other => other := by
  induction es with
  | nil => rfl
  | file m c rest ih =>
    simp only [Entries.update]
    split
    · rename_i hm; simp [Entries.find, hm]
    · rename_i hm; simp [Entries.find, hm, ih]
  | dir m k rest _ ih =>
    simp only [Entries.update]
    split
    · rename_i hm; simp [Entries.find, hm]
    · rename_i hm; simp [Entries.find, hm, ih]
  | locked m rest ih =>
    simp only [Entries.update]
    split
    · rename_i hm; simp [Entries.find, hm]
    · rename_i hm; simp [Entries.find, hm, ih]

theorem nodeAt_child_dir (child : Node) (ns : List String) (es : Entries)
    (h : nodeAt child ns = some (.dir es)) : ∃ k, child = .dir k := by
  cases child with
  | dir k => exact ⟨k, rfl⟩
  | file c => cases ns <;> simp [nodeAt] at h
  | locked => cases ns <;> simp [nodeAt] at h

theorem nodeAt_cons (root : Entries) (n : String) (ns : List String) (es : Entries)
    (h : nodeAt (.dir root) (n :: ns) = some (.dir es)) :
    ∃ k, root.find n = some (.dir k) ∧ nodeAt (.dir k) ns = some (.dir es) := by
  simp only [nodeAt] at h
  cases hf : root.find n with
  | none => rw [hf] at h; simp at h
  | some child =>
    rw [hf] at h
    simp only at h
    obtain ⟨k, rfl⟩ := nodeAt_child_dir child ns es h
    exact ⟨k, rfl, h⟩

theorem nodeAt_of_find (root : Entries) (n : String) (ns : List String) (child : Node)
    (h : root.find n = some child) : nodeAt (.dir root) (n :: ns) = nodeAt child ns := by
  simp [nodeAt, h]

theorem nodeAt_update_self (h : Entries → Entries) :
    ∀ (loc0 : List String) (root es0 : Entries), nodeAt (.dir root) loc0 = some (.dir es0) →
      nodeAt (.dir (Entries.update h loc0 root)) loc0 = some (.dir (h es0)) := by
  intro loc0
  induction loc0 with
  | nil =>
    intro root es0 h0
    simp only [nodeAt, Option.some.injEq, Node.dir.injEq] at h0
    subst h0
    cases root <;> simp [Entries.update, nodeAt]
  | cons n0 ns0 ih =>
    intro root es0 h0
    obtain ⟨k, hk, hk2⟩ := nodeAt_cons root n0 ns0 es0 h0
    have hf := find_update_self h n0 ns0 root
    rw [hk] at hf
    simp only at hf
    rw [nodeAt_of_find _ _ _ _ hf]
    exact ih k es0 hk2

theorem update_nil (h : Entries → Entries) (root : Entries) : Entries.update h [] root = h root := by
  cases root <;> rfl

theorem nodeAt_update (h : Entries → Entries) :
    ∀ (loc0 : List String) (root es0 : Entries), nodeAt (.dir root) loc0 = some (.dir es0) →
      Keeps h es0 → ∀ (loc : List String) (es : Entries),
        nodeAt (.dir root) loc = some (.dir es) →
        ∃ es', nodeAt (.dir (Entries.update h loc0 root)) loc = some (.dir es') ∧
          ∀ n, (es.find n).isSome = true → (es'.find n).isSome = true := by
  intro loc0
  induction loc0 with
  | nil =>
    intro root es0 h0 hk loc es hl
    simp only [nodeAt, Option.some.injEq, Node.dir.injEq] at h0
    subst h0
    rw [update_nil]
    cases loc with
    | nil =>
      simp only [nodeAt, Option.some.injEq, Node.dir.injEq] at hl
      subst hl
      refine ⟨h root, rfl, ?_⟩
      intro n hn
      obtain ⟨node, hnode⟩ := Option.isSome_iff_exists.1 hn
      exact (hk n node hnode).2
    | cons n ns =>
      obtain ⟨k, hk1, hk2⟩ := nodeAt_cons root n ns es hl
      have := (hk n (.dir k) hk1).1 rfl
      exact ⟨es, by rw [nodeAt_of_find _ _ _ _ this]; exact hk2, fun _ hn => hn⟩
  | cons n0 ns0 ih =>
    intro root es0 h0 hk loc es hl
    obtain ⟨k0, hk0, hk02⟩ := nodeAt_cons root n0 ns0 es0 h0
    have hf := find_update_self h n0 ns0 root
    rw [hk0] at hf
    simp only at hf
    cases loc with
    | nil =>
      simp only [nodeAt, Option.some.injEq, Node.dir.injEq] at hl
      subst hl
      refine ⟨_, rfl, ?_⟩
      intro n hn
      by_cases hne : n = n0
      · subst hne; rw [hf]; rfl
      · rw [find_update_ne h n0 ns0 n root hne]; exact hn
    | cons n ns =>
      obtain ⟨k, hk1, hk2⟩ := nodeAt_cons root n ns es hl
      by_cases hne : n = n0
      · subst hne
        rw [hk0] at hk1
        simp only [Option.some.injEq, Node.dir.injEq] at hk1
        subst hk1
        rw [nodeAt_of_find _ _ _ _ hf]
        exact ih k0 es0 hk02 hk ns es hk2
      · have : (Entries.update h (n0 :: ns0) root).find n = some (.dir k) := by
          rw [find_update_ne h n0 ns0 n root hne]; exact hk1
        exact ⟨es, by rw [nodeAt_of_find _ _ _ _ this]; exact hk2, fun _ hn => hn⟩

theorem lookupDir_ok (root : Entries) (loc : List String) (es : Entries) :
    lookupDir root loc = .ok es ↔ nodeAt (.dir root) loc = some (.dir es) := by
  unfold lookupDir
  cases h : nodeAt (.dir root) loc with
  | none => simp
  | some node => cases node <;> simp

theorem resolveStep_update (h : Entries → Entries) (loc0 : List String) (root es0 : Entries)
    (h0 : nodeAt (.dir root) loc0 = some (.dir es0)) (hk : Keeps h es0)
    (l l' : List String) (e : List Char)
    (hr : resolveStep root (.ok l) e = .ok l') :
    resolveStep (Entries.update h loc0 root) (.ok l) e = .ok l' := by
  unfold resolveStep at hr ⊢
  simp only at hr ⊢
  cases hd : lookupDir root l with
  | error err => rw [hd] at hr; simp at hr
  | ok es =>
    rw [hd] at hr
    simp only at hr
    obtain ⟨es', he1, he2⟩ := nodeAt_update h loc0 root es0 h0 hk l es ((lookupDir_ok _ _ _).1 hd)
    rw [(lookupDir_ok _ _ _).2 he1]
    simp only
    split at hr
    · rename_i h1; rw [if_pos h1]; exact hr
    · rename_i h1
      rw [if_neg h1]
      split at hr
      · rename_i h2; rw [if_pos h2]; exact hr
      · rename_i h2
        rw [if_neg h2]
        cases hf : es.find ⟨e⟩ with
        | none => rw [hf] at hr; simp at hr
        | some node =>
          rw [hf] at hr
          have := he2 ⟨e⟩ (by rw [hf]; rfl)
          obtain ⟨node', hn'⟩ := Option.isSome_iff_exists.1 this
          rw [hn']
          exact hr

theorem foldl_resolveStep_error (root : Entries) (err : Err) (es : List (List Char)) :
    es.foldl (resolveStep root) (.error err) = .error err := by
  induction es with
  | nil => rfl
  | cons e es ih => simpa [resolveStep] using ih

theorem foldl_resolveStep_update (h : Entries → Entries) (loc0 : List String)
    (root es0 : Entries) (h0 : nodeAt (.dir root) loc0 = some (.dir es0)) (hk : Keeps h es0)
    (es : List (List Char)) :
    ∀ l l', es.foldl (resolveStep root) (.ok l) = .ok l' →
      es.foldl (resolveStep (Entries.update h loc0 root)) (.ok l) = .ok l' := by
  induction es with
  | nil => intro l l' hr; exact hr
  | cons e es ih =>
    intro l l' hr
    simp only [List.foldl_cons] at hr ⊢
    cases hstep : resolveStep root (.ok l) e with
    | error err =>
      rw [hstep, foldl_resolveStep_error] at hr
      simp at hr
    | ok l1 =>
      rw [hstep] at hr
      rw [resolveStep_update h loc0 root es0 h0 hk l l1 e hstep]
      exact ih l1 l' hr

theorem nodeAt_append_one (node : Node) :
    ∀ (loc : List String) (es : Entries) (n : String), nodeAt node loc = some (.dir es) →
      nodeAt node (loc ++ [n]) = es.find n := by
  intro loc
  induction loc generalizing node with
  | nil =>
    intro es n h
    simp only [nodeAt, Option.some.injEq] at h
    subst h
    simp only [List.nil_append, nodeAt]
    cases es.find n <;> simp [nodeAt]
  | cons m ms ih =>
    intro es n h
    obtain ⟨k, rfl⟩ := nodeAt_child_dir node (m :: ms) es h
    simp only [List.cons_append, nodeAt] at h ⊢
    cases hf : k.find m with
    | none => rw [hf] at h; simp at h
    | some child =>
      rw [hf] at h
      simp only at h ⊢
      exact ih child es n h

theorem Create_ok (w : World) (out : String) (w1 : World) (f : File)
    (h : Create w out = .ok (w1, f)) :
    ∃ (loc : List String) (listing : Entries) (last : List Char) (g : Entries → Entries),
      out ≠ "" ∧ resolveFrom w out (splitSep out.data).dropLast = .ok loc ∧
      nodeAt (.dir w.root) loc = some (.dir listing) ∧
      splitSep out.data = (splitSep out.data).dropLast ++ [last] ∧
      ¬ (last = [] ∨ last = ['.'] ∨ last = ['.', '.']) ∧
      f = ⟨loc, ⟨last⟩⟩ ∧ w1 = ⟨w.root.update g loc, w.cwd⟩ ∧ Keeps g listing ∧
      (∃ c, (g listing).find ⟨last⟩ = some (.file (some c))) ∧
      (listing.find ⟨last⟩ = none ∨ ∃ c, listing.find ⟨last⟩ = some (.file c)) ∧
      ∀ a : String, a ≠ ⟨last⟩ → (g listing).find a = listing.find a := by
  unfold Create at h
  split at h
  · simp at h
  · rename_i hne
    simp only at h
    cases hr : resolveFrom w out (splitSep out.data).dropLast with
    | error err => rw [hr] at h; simp at h
    | ok loc =>
      rw [hr] at h
      simp only at h
      cases hd : lookupDir w.root loc with
      | error err => rw [hd] at h; simp at h
      | ok listing =>
        rw [hd] at h
        simp only at h
        obtain ⟨last, hlast⟩ : ∃ last, (splitSep out.data).getLast? = some last := by
          cases hg : (splitSep out.data).getLast? with
          | none => exact absurd (List.getLast?_eq_none_iff.1 hg) (splitSep_ne_nil _)
          | some a => exact ⟨a, rfl⟩
        have hsplit : splitSep out.data = (splitSep out.data).dropLast ++ [last] :=
          (List.dropLast_append_getLast? last hlast).symm
        rw [hlast] at h
        simp only [Option.getD_some] at h
        split at h
        · simp at h
        · rename_i hsp
          cases hf : listing.find ⟨last⟩ with
          | none =>
            rw [hf] at h
            simp only [Except.ok.injEq, Prod.mk.injEq] at h
            exact ⟨loc, listing, last, Entries.insert ⟨last⟩, hne, rfl, (lookupDir_ok _ _ _).1 hd,
              hsplit, hsp, h.2.symm, h.1.symm, keeps_insert _ _ hf,
              ⟨"", find_insert_self _ _ hf⟩, Or.inl hf,
              fun a ha => find_insert_ne _ a listing ha⟩
          | some node =>
            rw [hf] at h
            cases node with
            | dir k => simp at h
            | locked => simp at h
            | file c =>
              cases c with
              | none => simp at h
              | some c =>
                simp only [Except.ok.injEq, Prod.mk.injEq] at h
                exact ⟨loc, listing, last, Entries.overwrite ⟨last⟩ "", hne, rfl,
                  (lookupDir_ok _ _ _).1 hd, hsplit, hsp, h.2.symm, h.1.symm,
                  keeps_overwrite _ _ _, ⟨"", by rw [find_overwrite_self, hf]⟩,
                  Or.inr ⟨some c, hf⟩, fun a ha => find_overwrite_ne _ _ a listing ha⟩

theorem WriteString_after_Create (w : World) (loc : List String) (name s : String)
    (g : Entries → Entries) :
    WriteString ⟨w.root.update g loc, w.cwd⟩ ⟨loc, name⟩ s
      = ⟨w.root.update (Entries.overwrite name s ∘ g) loc, w.cwd⟩ := by
  simp [WriteString, update_update]

theorem read_after_write (w : World) (out : String) (w1 : World) (f : File) (s : String)
    (h : Create w out = .ok (w1, f)) : ReadFile (WriteString w1 f s) out = .ok s := by
  obtain ⟨loc, listing, last, g, hne, hres, hdir, hsplit, hsp, rfl, rfl, hk, ⟨c, hc⟩, _, _⟩ :=
    Create_ok w out w1 f h
  rw [WriteString_after_Create]
  have hk2 : Keeps (Entries.overwrite ⟨last⟩ s ∘ g) listing :=
    keeps_comp _ _ _ hk (keeps_overwrite _ _ _)
  have hfind : ((Entries.overwrite ⟨last⟩ s ∘ g) listing).find ⟨last⟩ = some (.file (some s)) := by
    simp only [Function.comp]
    rw [find_overwrite_self, hc]
  have hself := nodeAt_update_self (Entries.overwrite ⟨last⟩ s ∘ g) loc w.root listing hdir
  unfold ReadFile Stat
  rw [if_neg hne]
  have hres2 : resolveFrom ⟨w.root.update (Entries.overwrite ⟨last⟩ s ∘ g) loc, w.cwd⟩ out
      (splitSep out.data) = .ok (loc ++ [⟨last⟩]) := by
    rw [hsplit]
    unfold resolveFrom at hres ⊢
    rw [List.foldl_append]
    simp only
    rw [foldl_resolveStep_update _ loc w.root listing hdir hk2 _ _ _ hres]
    simp only [List.foldl_cons, List.foldl_nil, resolveStep]
    rw [(lookupDir_ok _ _ _).2 hself]
    simp only [not_or] at hsp
    have hfind2 : (Entries.overwrite ⟨last⟩ s (g listing)).find ⟨last⟩ = some (.file (some s)) :=
      hfind
    simp [hsp.1, hsp.2.1, hsp.2.2, hfind2]
  rw [hres2]
  simp only
  rw [nodeAt_append_one _ loc _ _ hself, hfind]
  simp [Node.read]

theorem Create_again (w : World) (out : String) (w1 : World) (f : File) (s : String)
    (h : Create w out = .ok (w1, f)) :
    ∃ w2, Create (WriteString w1 f s) out = .ok (w2, f) ∧
      ∀ s', WriteString w2 f s' = WriteString w1 f s' := by
  obtain ⟨loc, listing, last, g, hne, hres, hdir, hsplit, hsp, rfl, rfl, hk, ⟨c, hc⟩, _, _⟩ :=
    Create_ok w out w1 f h
  rw [WriteString_after_Create]
  have hk2 : Keeps (Entries.overwrite ⟨last⟩ s ∘ g) listing :=
    keeps_comp _ _ _ hk (keeps_overwrite _ _ _)
  have hfind : ((Entries.overwrite ⟨last⟩ s ∘ g) listing).find ⟨last⟩ = some (.file (some s)) := by
    simp only [Function.comp]
    rw [find_overwrite_self, hc]
  have hself := nodeAt_update_self (Entries.overwrite ⟨last⟩ s ∘ g) loc w.root listing hdir
  have hres2 : resolveFrom ⟨w.root.update (Entries.overwrite ⟨last⟩ s ∘ g) loc, w.cwd⟩ out
      (splitSep out.data).dropLast = .ok loc := by
    unfold resolveFrom at hres ⊢
    exact foldl_resolveStep_update _ loc w.root listing hdir hk2 _ _ _ hres
  have hlast : (splitSep out.data).getLast? = some last := by
    rw [hsplit]; simp
  refine ⟨⟨(w.root.update (Entries.overwrite ⟨last⟩ s ∘ g) loc).update
      (Entries.overwrite ⟨last⟩ "") loc, w.cwd⟩, ?_, ?_⟩
  · unfold Create
    rw [if_neg hne]
    simp only [hres2, (lookupDir_ok _ _ _).2 hself, hlast, Option.getD_some, if_neg hsp, hfind]
  · intro s'
    rw [WriteString_after_Create]
    simp only [WriteString, update_update]
    congr 2
    funext es
    simp [Function.comp, overwrite_overwrite]

theorem nodeAt_update_outside (h : Entries → Entries) (name : String) :
    ∀ (loc0 : List String) (root es0 : Entries), nodeAt (.dir root) loc0 = some (.dir es0) →
      (∀ a : String, a ≠ name → (h es0).find a = es0.find a) →
      (es0.find name = none ∨ ∃ c, es0.find name = some (.file c)) →
      (∃ c, (h es0).find name = some (.file c)) →
      ∀ loc : List String, within loc (loc0 ++ [name]) = false →
        nodeAt (.dir (Entries.update h loc0 root)) loc = nodeAt (.dir root) loc := by
  intro loc0
  induction loc0 with
  | nil =>
    intro root es0 h0 hne hold hnew loc hw
    simp only [nodeAt, Option.some.injEq, Node.dir.injEq] at h0
    subst h0
    rw [update_nil]
    cases loc with
    | nil => simp [within] at hw
    | cons a rest =>
      by_cases ha : a = name
      · subst ha
        have hrest : rest ≠ [] := by
          intro e; subst e; simp [within] at hw
        obtain ⟨r0, rs, rfl⟩ := List.exists_cons_of_ne_nil hrest
        obtain ⟨c, hc⟩ := hnew
        simp only [nodeAt, hc]
        rcases hold with hn | ⟨c2, hc2⟩
        · simp [hn]
        · simp [hc2, nodeAt]
      · simp only [nodeAt, hne a ha]
  | cons n0 ns0 ih =>
    intro root es0 h0 hne hold hnew loc hw
    obtain ⟨k0, hk0, hk02⟩ := nodeAt_cons root n0 ns0 es0 h0
    have hf := find_update_self h n0 ns0 root
    rw [hk0] at hf
    simp only at hf
    cases loc with
    | nil => simp [within] at hw
    | cons a rest =>
      by_cases ha : a = n0
      · subst ha
        simp only [List.cons_append, within, decide_True, Bool.true_and] at hw
        rw [nodeAt_of_find _ _ _ _ hf, nodeAt_of_find _ _ _ _ hk0]
        exact ih k0 es0 hk02 hne hold hnew rest hw
      · simp only [nodeAt, find_update_ne h n0 ns0 a root ha]

theorem Stat_unchanged_outside (w : World) (out : String) (w1 : World) (f : File)
    (s p : String) (loc : List String) (hc : Create w out = .ok (w1, f))
    (hp : resolveFrom w p (splitSep p.data) = .ok loc)
    (hw : within loc (f.dir ++ [f.name]) = false) :
    Stat (WriteString w1 f s) p = Stat w p := by
  obtain ⟨locD, listing, last, g, hne, hres, hdir, hsplit, hsp, rfl, rfl, hk, ⟨c, hcf⟩, hold, hother⟩ :=
    Create_ok w out w1 f hc
  rw [WriteString_after_Create]
  have hk2 : Keeps (Entries.overwrite ⟨last⟩ s ∘ g) listing :=
    keeps_comp _ _ _ hk (keeps_overwrite _ _ _)
  have hp2 : resolveFrom ⟨w.root.update (Entries.overwrite ⟨last⟩ s ∘ g) locD, w.cwd⟩ p
      (splitSep p.data) = .ok loc := by
    unfold resolveFrom at hp ⊢
    exact foldl_resolveStep_update _ locD w.root listing hdir hk2 _ _ _ hp
  have hnode := nodeAt_update_outside (Entries.overwrite ⟨last⟩ s ∘ g) ⟨last⟩ locD w.root listing
    hdir
    (by
      intro a ha
      simp only [Function.comp]
      rw [find_overwrite_ne _ _ a _ ha]
      exact hother a ha)
    hold
    (by
      refine ⟨some s, ?_⟩
      simp only [Function.comp]
      rw [find_overwrite_self, hcf])
    loc hw
  unfold Stat
  rw [hp, hp2]
  simp only [hnode]

/-! ## Counting lines -/

theorem visits_length (t : Entries) :
    ∀ (path : String) (level : Nat), (visits path level t).length = t.countFiles + t.countDirs := by
  induction t with
  | nil => intro _ _; rfl
  | file n c rest ih =>
    intro path level
    simp only [visits, List.length_cons, Entries.countFiles, Entries.countDirs, ih path level]
    omega
  | dir n kids rest ihk ihr =>
    intro path level
    simp only [visits, List.length_cons, List.length_append, Entries.countFiles,
      Entries.countDirs, ihk, ihr]
    omega
  | locked n rest ih =>
    intro path level
    simp only [visits, List.length_cons, Entries.countFiles, Entries.countDirs, ih path level]
    omega

theorem filesOf_length (t : Entries) (h : t.listable = true) :
    ∀ (path : String) (level : Nat), (filesOf (visits path level t)).length = t.countFiles := by
  induction t with
  | nil => intro _ _; rfl
  | file n c rest ih =>
    intro path level
    simp only [Entries.listable] at h
    have := ih h path level
    simp only [filesOf, List.length_map] at this
    simp [visits, filesOf, Entries.countFiles, this]
    omega
  | dir n kids rest ihk ihr =>
    intro path level
    simp only [Entries.listable, Bool.and_eq_true] at h
    have h1 := ihk h.1 (Join path n) (level + 1)
    have h2 := ihr h.2 path level
    simp only [filesOf, List.length_map] at h1 h2
    simp [visits, filesOf, Entries.countFiles, h1, h2]
  | locked n rest ih => simp [Entries.listable] at h

theorem visits_newlineFree (t : Entries) (h : t.newlineFree = true) :
    ∀ (path : String) (level : Nat), ∀ v ∈ visits path level t, '\n' ∉ v.name.data := by
  induction t with
  | nil => intro _ _ v hv; simp [visits] at hv
  | file n c rest ih =>
    intro path level v hv
    simp only [Entries.newlineFree, Bool.and_eq_true, decide_eq_true_eq] at h
    simp only [visits, List.mem_cons] at hv
    rcases hv with rfl | hv
    · exact h.1
    · exact ih h.2 path level v hv
  | dir n kids rest ihk ihr =>
    intro path level v hv
    simp only [Entries.newlineFree, Bool.and_eq_true, decide_eq_true_eq] at h
    simp only [visits, List.mem_cons, List.mem_append] at hv
    rcases hv with rfl | hv | hv
    · exact h.1.1
    · exact ihk h.1.2 _ _ v hv
    · exact ihr h.2 _ _ v hv
  | locked n rest ih =>
    intro path level v hv
    simp only [Entries.newlineFree, Bool.and_eq_true, decide_eq_true_eq] at h
    simp only [visits, List.mem_cons] at hv
    rcases hv with rfl | hv
    · exact h.1
    · exact ih h.2 path level v hv

theorem entryLine_count (k : Nat) (d : Bool) (n : String) (h : '\n' ∉ n.data) :
    (entryLine k d n).data.count '\n' = 1 := by
  unfold entryLine spaces
  cases d
  · simp [String.data_append, List.count_eq_zero_of_not_mem h, List.count_replicate]
  · simp [String.data_append, List.count_eq_zero_of_not_mem h, List.count_replicate]

theorem entryLine_last (k : Nat) (d : Bool) (n : String) :
    (entryLine k d n).data.getLast? = some '\n' := by
  unfold entryLine
  simp only [String.data_append]
  rw [List.getLast?_append]
  rfl

theorem concat_lines_count (vs : List Visit) (f : Visit → Nat)
    (h : ∀ v ∈ vs, '\n' ∉ v.name.data) :
    (concat (vs.map (fun v => entryLine (f v) v.isDir v.name))).data.count '\n' = vs.length := by
  induction vs with
  | nil => rfl
  | cons v vs ih =>
    simp only [List.map_cons, concat, String.data_append, List.count_append, List.length_cons]
    rw [entryLine_count _ _ _ (h v (by simp)), ih (fun x hx => h x (by simp [hx]))]
    omega

theorem concat_lines_last (vs : List Visit) (f : Visit → Nat) (x : String)
    (hx : x.data.getLast? = some '\n') :
    (x ++ concat (vs.map (fun v => entryLine (f v) v.isDir v.name))).data.getLast?
      = some '\n' := by
  induction vs generalizing x with
  | nil => simpa [concat] using hx
  | cons v vs ih =>
    simp only [List.map_cons, concat]
    rw [← String.append_assoc]
    apply ih
    simp [String.data_append, entryLine_last]

/-! ## Splitting a contents section back into its blocks -/

theorem split_at_newline (a b x y : List Char) (ha : '\n' ∉ a) (hb : '\n' ∉ b)
    (h : a ++ '\n' :: x = b ++ '\n' :: y) : a = b ∧ x = y := by
  induction a generalizing b with
  | nil =>
    cases b with
    | nil => simpa using h
    | cons c cs =>
      simp only [List.nil_append, List.cons_append, List.cons.injEq] at h
      exact absurd (by simp [← h.1]) hb
  | cons c cs ih =>
    cases b with
    | nil =>
      simp only [List.nil_append, List.cons_append, List.cons.injEq] at h
      exact absurd (by simp [h.1]) ha
    | cons d ds =>
      simp only [List.cons_append, List.cons.injEq] at h
      simp only [List.mem_cons, not_or] at ha hb
      obtain ⟨h1, h2⟩ := ih ds ha.2 hb.2 h.2
      exact ⟨by rw [h.1, h1], h2⟩

theorem hasMarker_tail (c : Char) (cs : List Char) (h : hasMarker (c :: cs) = false) :
    hasMarker cs = false := by
  simp only [hasMarker, Bool.or_eq_false_iff] at h
  exact h.2

theorem no_marker_overlap (x r r2 : List Char) (hx : hasMarker x = false)
    (hr : r = [] ∨ ∃ r3, r = '-' :: '-' :: '-' :: ' ' :: r3)
    (h : x ++ '\n' :: '\n' :: r2 = '\n' :: '\n' :: r) : x = [] := by
  cases x with
  | nil => rfl
  | cons x0 x =>
  exfalso
  simp only [List.cons_append, List.cons.injEq] at h
  obtain ⟨rfl, h⟩ := h
  cases x with
  | nil =>
    simp only [List.nil_append, List.cons.injEq, true_and] at h
    rcases hr with rfl | ⟨r3, rfl⟩
    · simp at h
    · simp at h
  | cons x1 x =>
  simp only [List.cons_append, List.cons.injEq] at h
  obtain ⟨rfl, h⟩ := h
  rcases hr with rfl | ⟨r3, rfl⟩
  · simp at h
  cases x with
  | nil => simp at h
  | cons x2 x =>
  simp only [List.cons_append, List.cons.injEq] at h
  obtain ⟨rfl, h⟩ := h
  cases x with
  | nil => simp at h
  | cons x3 x =>
  simp only [List.cons_append, List.cons.injEq] at h
  obtain ⟨rfl, h⟩ := h
  cases x with
  | nil => simp at h
  | cons x4 x =>
  simp only [List.cons_append, List.cons.injEq] at h
  obtain ⟨rfl, h⟩ := h
  cases x with
  | nil => simp at h
  | cons x5 x =>
  simp only [List.cons_append, List.cons.injEq] at h
  obtain ⟨rfl, h⟩ := h
  simp [hasMarker, List.isPrefixOf] at hx

theorem split_at_marker (c1 c2 r1 r2 : List Char)
    (h1 : hasMarker c1 = false) (h2 : hasMarker c2 = false)
    (hr1 : r1 = [] ∨ ∃ r3, r1 = '-' :: '-' :: '-' :: ' ' :: r3)
    (hr2 : r2 = [] ∨ ∃ r3, r2 = '-' :: '-' :: '-' :: ' ' :: r3)
    (h : c1 ++ '\n' :: '\n' :: r1 = c2 ++ '\n' :: '\n' :: r2) : c1 = c2 ∧ r1 = r2 := by
  induction c1 generalizing c2 with
  | nil =>
    have := no_marker_overlap c2 r1 r2 h2 hr1 (by simpa using h.symm)
    subst this
    simpa using h
  | cons a c1 ih =>
    cases c2 with
    | nil =>
      have := no_marker_overlap (a :: c1) r2 r1 h1 hr2 (by simpa using h)
      simp at this
    | cons b c2 =>
      simp only [List.cons_append, List.cons.injEq] at h
      obtain ⟨h3, h4⟩ := ih c2 (hasMarker_tail a c1 h1) (hasMarker_tail b c2 h2) h.2
      exact ⟨by rw [h.1, h3], h4⟩

theorem block_data (f : String × String) :
    (block f).data = '-' :: '-' :: '-' :: ' ' :: (f.1.data ++ ' ' :: '-' :: '-' :: '-' :: '\n' ::
      (f.2.data ++ '\n' :: '\n' :: [])) := by
  simp [block, String.data_append]

theorem concat_blocks_data (fs : List (String × String)) :
    (concat (fs.map block)).data = [] ∨
      ∃ r, (concat (fs.map block)).data = '-' :: '-' :: '-' :: ' ' :: r := by
  cases fs with
  | nil => left; rfl
  | cons f fs =>
    right
    simp only [List.map_cons, concat, String.data_append, block_data, List.cons_append]
    exact ⟨_, rfl⟩

theorem concat_blocks_injective (fs1 : List (String × String)) :
    ∀ fs2 : List (String × String), splittable fs1 = true → splittable fs2 = true →
      concat (fs1.map block) = concat (fs2.map block) → fs1 = fs2 := by
  induction fs1 with
  | nil =>
    intro fs2 _ _ h
    cases fs2 with
    | nil => rfl
    | cons f fs =>
      have := congrArg String.data h
      simp [concat, String.data_append, block_data] at this
  | cons f1 fs1 ih =>
    intro fs2 hs1 hs2 h
    cases fs2 with
    | nil =>
      have := congrArg String.data h
      simp [concat, String.data_append, block_data] at this
    | cons f2 fs2 =>
      simp only [splittable, List.all_cons, Bool.and_eq_true, decide_eq_true_eq,
        Bool.not_eq_true'] at hs1 hs2
      have hd := congrArg String.data h
      simp only [List.map_cons, concat, String.data_append, block_data, List.cons_append,
        List.cons.injEq, true_and, List.append_assoc] at hd
      have hp1 : '\n' ∉ f1.1.data ++ [' ', '-', '-', '-'] := by
        simp only [List.mem_append, not_or]
        exact ⟨hs1.1.1, by decide⟩
      have hp2 : '\n' ∉ f2.1.data ++ [' ', '-', '-', '-'] := by
        simp only [List.mem_append, not_or]
        exact ⟨hs2.1.1, by decide⟩
      obtain ⟨ha, hb⟩ := split_at_newline _ _ _ _ hp1 hp2 (by simpa using hd)
      have hpath : f1.1.data = f2.1.data := List.append_cancel_right ha
      obtain ⟨hc, hr⟩ := split_at_marker _ _ _ _ hs1.1.2 hs2.1.2
        (concat_blocks_data fs1) (concat_blocks_data fs2) (by simpa using hb)
      have hrest := ih fs2 (by simpa [splittable] using hs1.2) (by simpa [splittable] using hs2.2)
        (String.ext hr)
      rw [hrest]
      congr 1
      exact Prod.ext (String.ext hpath) (String.ext hc)

/-! ## End of a run -/

theorem finish_ok (w : World) (out content : String) (hc : creatable w out = true) :
    (match Create w out with
      | .error err => (⟨w, 1, .errorCreatingOutputFile err⟩ : Result)
      | .ok (w1, file) => ⟨WriteString w1 file content, 0, .snapshotSavedTo out⟩).exit = 0 ∧
    ReadFile (match Create w out with
      | .error err => (⟨w, 1, .errorCreatingOutputFile err⟩ : Result)
      | .ok (w1, file) => ⟨WriteString w1 file content, 0, .snapshotSavedTo out⟩).world out
      = .ok content := by
  unfold creatable at hc
  cases h : Create w out with
  | error err => rw [h] at hc; simp at hc
  | ok p =>
    obtain ⟨w1, file⟩ := p
    exact ⟨rfl, read_after_write w out w1 file content h⟩

theorem walkEntries_contentFn_err (es : Entries) :
    ∀ (path c c' : String),
      (walkEntries contentFn path es c).2 = (walkEntries contentFn path es c').2 := by
  induction es with
  | nil => intro _ _ _; rfl
  | file n cont rest ih =>
    intro path c c'
    cases cont with
    | none => simp [walkEntries, contentFn, Node.IsDir, Node.read]
    | some x =>
      simp only [walkEntries, contentFn_file]
      exact ih path _ _
  | dir n kids rest ihk ihr =>
    intro path c c'
    simp only [walkEntries, contentFn_dir]
    have hk := ihk (Join path n) c c'
    cases h1 : walkEntries contentFn (Join path n) kids c with
    | mk s1 e1 =>
      cases h2 : walkEntries contentFn (Join path n) kids c' with
      | mk s2 e2 =>
        rw [h1, h2] at hk
        simp only at hk
        subst hk
        cases e1 with
        | none => simp only; exact ihr path _ _
        | some e => rfl
  | locked n rest ih =>
    intro path c c'
    simp [walkEntries, contentFn]

theorem Walk_contentFn_err (w : World) (p c c' : String) :
    (Walk w p contentFn c).2 = (Walk w p contentFn c').2 := by
  unfold Walk
  cases Stat w p with
  | error err => simp [contentFn]
  | ok info =>
    cases info with
    | file cont =>
      cases cont <;> simp [walk, contentFn, Node.IsDir, Node.read]
    | dir kids =>
      simp only [walk, contentFn_dir]
      exact walkEntries_contentFn_err kids p c c'
    | locked => simp [walk, contentFn]

theorem walkEntries_contentFn_grows (es : Entries) :
    ∀ (path c : String), ∃ r, (walkEntries contentFn path es c).1 = c ++ r := by
  induction es with
  | nil => intro _ c; exact ⟨"", by simp [walkEntries]⟩
  | file n cont rest ih =>
    intro path c
    cases cont with
    | none => exact ⟨"", by simp [walkEntries, contentFn, Node.IsDir, Node.read]⟩
    | some x =>
      simp only [walkEntries, contentFn_file]
      obtain ⟨r, hr⟩ := ih path (c ++ block (Join path n, x))
      exact ⟨block (Join path n, x) ++ r, by rw [hr, String.append_assoc]⟩
  | dir n kids rest ihk ihr =>
    intro path c
    simp only [walkEntries, contentFn_dir]
    obtain ⟨r1, hr1⟩ := ihk (Join path n) c
    cases h1 : walkEntries contentFn (Join path n) kids c with
    | mk s1 e1 =>
      rw [h1] at hr1
      simp only at hr1
      subst hr1
      cases e1 with
      | some e => exact ⟨r1, rfl⟩
      | none =>
        simp only
        obtain ⟨r2, hr2⟩ := ihr path (c ++ r1)
        exact ⟨r1 ++ r2, by rw [hr2, String.append_assoc]⟩
  | locked n rest ih =>
    intro path c
    exact ⟨"", by simp [walkEntries, contentFn]⟩

theorem Walk_contentFn_grows (w : World) (p c : String) :
    ∃ r, (Walk w p contentFn c).1 = c ++ r := by
  unfold Walk
  cases Stat w p with
  | error err => exact ⟨"", by simp [contentFn]⟩
  | ok info =>
    cases info with
    | file cont =>
      cases cont with
      | none => exact ⟨"", by simp [walk, contentFn, Node.IsDir, Node.read]⟩
      | some x => exact ⟨block (p, x), by simp [walk, contentFn_file]⟩
    | dir kids =>
      simp only [walk, contentFn_dir]
      exact walkEntries_contentFn_grows kids p c
    | locked => exact ⟨"", by simp [walk, contentFn]⟩

theorem header_ne (x y : String) : "File Contents:\n" ++ x ≠ "Directory Tree:\n" ++ y := by
  intro h
  have := congrArg String.data h
  simp [String.data_append] at this

theorem main_eq_snapshot (w : World) (outputFile : String) (includeTree : Bool)
    (args : List String) :
    main w outputFile includeTree args =
      match snapshot w includeTree (inputPath args) with
      | .error msg => ⟨w, 1, msg⟩
      | .ok content =>
        match Create w outputFile with
        | .error err => ⟨w, 1, .errorCreatingOutputFile err⟩
        | .ok (w1, file) => ⟨WriteString w1 file content, 0, .snapshotSavedTo outputFile⟩ := by
  unfold main snapshot
  simp only
  cases Stat w (inputPath args) with
  | error err => rfl
  | ok info =>
    simp only
    cases includeTree with
    | false =>
      cases info.IsDir with
      | false => simp only [Bool.and_self, Bool.false_eq_true, if_false]
      | true => simp only [Bool.false_and, Bool.false_eq_true, if_false, if_true]
    | true =>
      cases info.IsDir with
      | false => simp only [Bool.and_false, Bool.false_eq_true, if_false]
      | true =>
        simp only [Bool.and_self, if_true]
        cases generateTree w (inputPath args) with
        | mk tree e =>
          cases e with
          | some err => rfl
          | none => simp only

theorem snapshot_congr (w w' : World) (includeTree : Bool) (p : String)
    (h : Stat w' p = Stat w p) : snapshot w' includeTree p = snapshot w includeTree p := by
  unfold snapshot generateTree Walk ReadFile
  rw [h]

theorem snapshot_start (w : World) (includeTree : Bool) (p content : String)
    (h : snapshot w includeTree p = .ok content) :
    ∃ info, Stat w p = .ok info ∧
      ((includeTree = true ∧ info.IsDir = true) → ∃ r, content = "Directory Tree:\n" ++ r) ∧
      (¬ (includeTree = true ∧ info.IsDir = true) → ∃ r, content = "File Contents:\n" ++ r) := by
  unfold snapshot at h
  cases hs : Stat w p with
  | error err => rw [hs] at h; simp at h
  | ok info =>
    rw [hs] at h
    refine ⟨info, rfl, ?_⟩
    simp only at h
    cases hti : (includeTree && info.IsDir) with
    | false =>
      have hnot : ¬ (includeTree = true ∧ info.IsDir = true) := by
        intro hc; simp [hc.1, hc.2] at hti
      refine ⟨fun hc => absurd hc hnot, fun _ => ?_⟩
      rw [hti] at h
      simp only [Bool.false_eq_true, if_false] at h
      cases hd : info.IsDir with
      | true =>
        rw [hd] at h
        simp only [if_true] at h
        obtain ⟨r, hr⟩ := Walk_contentFn_grows w p ("" ++ "File Contents:\n")
        cases hw : Walk w p contentFn ("" ++ "File Contents:\n") with
        | mk s e =>
          rw [hw] at h hr
          cases e with
          | some err => simp at h
          | none =>
            simp only [Except.ok.injEq] at h
            subst h
            exact ⟨r, by simpa using hr⟩
      | false =>
        rw [hd] at h
        simp only [Bool.false_eq_true, if_false] at h
        cases hr : ReadFile w p with
        | error err => rw [hr] at h; simp at h
        | ok fc =>
          rw [hr] at h
          simp only [Except.ok.injEq] at h
          subst h
          exact ⟨_, by rw [String.empty_append, String.append_assoc]⟩
    | true =>
      have hyes : includeTree = true ∧ info.IsDir = true := by
        simpa using hti
      refine ⟨fun _ => ?_, fun hc => absurd hyes hc⟩
      rw [hti] at h
      simp only [if_true, hyes.2] at h
      cases hg : generateTree w p with
      | mk tree e =>
        rw [hg] at h
        cases e with
        | some err => simp at h
        | none =>
          simp only at h
          obtain ⟨r, hr⟩ := Walk_contentFn_grows w p
            ("" ++ "Directory Tree:\n" ++ tree ++ "\n\n" ++ "File Contents:\n")
          cases hw : Walk w p contentFn
              ("" ++ "Directory Tree:\n" ++ tree ++ "\n\n" ++ "File Contents:\n") with
          | mk s e =>
            rw [hw] at h hr
            cases e with
            | some err => simp at h
            | none =>
              simp only [Except.ok.injEq] at h
              subst h
              simp only at hr
              exact ⟨tree ++ ("\n\n" ++ ("File Contents:\n" ++ r)), by
                rw [hr]; simp only [String.empty_append, String.append_assoc]⟩

/-! ## The claims -/

/-- C1. File mode: when the input path `p` names a regular file with content `c` and the
output file can be created, the run exits with code 0 and the output file then holds
exactly `"File Contents:\n--- p ---\n" ++ c ++ "\n\n"`, whatever the tree flag: no tree
block, and one content block headed by the input path as given. -/
theorem file_mode_snapshot (w : World) (outputFile p : String) (rest : List String)
    (includeTree : Bool) (c : String)
    (hs : Stat w p = .ok (.file (some c))) (hc : creatable w outputFile = true) :
    (main w outputFile includeTree (p :: rest)).exit = 0 ∧
    ReadFile (main w outputFile includeTree (p :: rest)).world outputFile
      = .ok ("File Contents:\n--- " ++ p ++ " ---\n" ++ c ++ "\n\n") := by
  rw [main_file w outputFile p rest includeTree c hs]
  have h := finish_ok w outputFile ("File Contents:\n" ++ block (p, c)) hc
  have e : "File Contents:\n" ++ block (p, c)
      = "File Contents:\n--- " ++ p ++ " ---\n" ++ c ++ "\n\n" := by
    apply String.ext
    simp [block, String.data_append]
  rw [e] at h
  exact h

/-- Witness of C1: `notes.txt` with the tree flag set. -/
theorem file_mode_snapshot_witness :
    Stat notesWorld "notes.txt" = .ok (.file (some "hello\n")) ∧
    creatable notesWorld "out.txt" = true ∧
    (main notesWorld "out.txt" true ["notes.txt"]).exit = 0 ∧
    ReadFile (main notesWorld "out.txt" true ["notes.txt"]).world "out.txt"
      = .ok ("File Contents:\n--- " ++ "notes.txt" ++ " ---\n" ++ "hello\n" ++ "\n\n") :=
  ⟨rfl, rfl, file_mode_snapshot notesWorld "out.txt" "notes.txt" [] true "hello\n" rfl rfl⟩

/-- C2. Directory mode: when the input path names a directory whose files can all be
read, the snapshot is the tree block (if asked for) followed by `"File Contents:\n"` and
one block `"--- <path> ---\n" ++ <content> ++ "\n\n"` for each non-directory entry of the
pre-order walk, under the path the walk reports; there is one block for each file, and
`generateTree` lists the entries of the same walk in the same order. -/
theorem dir_mode_contents (w : World) (outputFile p : String) (rest : List String)
    (includeTree : Bool) (t : Entries)
    (hs : Stat w p = .ok (.dir t)) (hr : t.readable = true) (hw : t.wellNamed = true)
    (hc : creatable w outputFile = true) :
    (main w outputFile includeTree (p :: rest)).exit = 0 ∧
    ReadFile (main w outputFile includeTree (p :: rest)).world outputFile
      = .ok ((if includeTree then "Directory Tree:\n" ++ (generateTree w p).1 ++ "\n\n" else "")
          ++ ("File Contents:\n" ++ concat ((filesOf (visits p 1 t)).map
            (fun f => "--- " ++ f.1 ++ " ---\n" ++ f.2 ++ "\n\n")))) ∧
    (filesOf (visits p 1 t)).length = t.countFiles ∧
    (generateTree w p).1 = p ++ "\n" ++ concat ((visits p 1 t).map
      (fun v => entryLine (2 * (v.level - 1)) v.isDir v.name)) := by
  refine ⟨?_, ?_, filesOf_length t (readable_listable t hr) p 1, ?_⟩
  · rw [main_dir w outputFile p rest includeTree t hs hr hw]
    exact (finish_ok w outputFile _ hc).1
  · rw [main_dir w outputFile p rest includeTree t hs hr hw]
    exact (finish_ok w outputFile _ hc).2
  · rw [generateTree_dir w p t hs (readable_listable t hr) hw]

/-- Witness of C2: the directory `proj` of the scenario, with the tree flag set. -/
theorem dir_mode_contents_witness :
    Stat projWorld "proj" = .ok (.dir projTree) ∧ projTree.readable = true ∧
    projTree.wellNamed = true ∧ creatable projWorld "out.txt" = true ∧
    ReadFile (main projWorld "out.txt" true ["proj"]).world "out.txt"
      = .ok ((if true then "Directory Tree:\n" ++ (generateTree projWorld "proj").1 ++ "\n\n"
          else "")
          ++ ("File Contents:\n" ++ concat ((filesOf (visits "proj" 1 projTree)).map
            (fun f => "--- " ++ f.1 ++ " ---\n" ++ f.2 ++ "\n\n")))) :=
  ⟨rfl, rfl, rfl, rfl,
    (dir_mode_contents projWorld "out.txt" "proj" [] true projTree rfl rfl rfl rfl).2.1⟩

/-- C3, as amended: for a directory with `N` files and `M` subdirectories, all of them
listable, whose root path and entry names contain no newline, `generateTree` succeeds and
the string it returns has exactly `N + M + 1` newlines, the last of which ends it. -/
theorem tree_line_count (w : World) (root : String) (t : Entries)
    (hs : Stat w root = .ok (.dir t)) (hl : t.listable = true) (hw : t.wellNamed = true)
    (hroot : '\n' ∉ root.data) (hnames : t.newlineFree = true) :
    (generateTree w root).2 = none ∧
    (generateTree w root).1.data.count '\n' = t.countFiles + t.countDirs + 1 ∧
    (generateTree w root).1.data.getLast? = some '\n' := by
  rw [generateTree_dir w root t hs hl hw]
  refine ⟨rfl, ?_, ?_⟩
  · simp only [String.data_append, List.count_append]
    rw [concat_lines_count _ _ (visits_newlineFree t hnames root 1), visits_length,
      List.count_eq_zero_of_not_mem hroot]
    have : List.count '\n' "\n".data = 1 := by decide
    rw [this]
    omega
  · apply concat_lines_last
    simp [String.data_append]

/-- Witness of C3 as amended: the directory `proj` of the scenario. -/
theorem tree_line_count_witness :
    Stat projWorld "proj" = .ok (.dir projTree) ∧ projTree.listable = true ∧
    projTree.wellNamed = true ∧ '\n' ∉ "proj".data ∧ projTree.newlineFree = true ∧
    (generateTree projWorld "proj").1.data.count '\n'
      = projTree.countFiles + projTree.countDirs + 1 :=
  ⟨rfl, rfl, rfl, by decide, rfl,
    (tree_line_count projWorld "proj" projTree rfl rfl rfl (by decide) rfl).2.1⟩

/-- Counterexample to C3 as stated: a directory with one file, named `a\nb`, and no
subdirectory gives a tree of three lines, not two. -/
theorem tree_line_count_fails :
    Stat newlineWorld "d" = .ok (.dir newlineTree) ∧
    newlineTree.countFiles = 1 ∧ newlineTree.countDirs = 0 ∧
    generateTree newlineWorld "d" = ("d\n- a\nb\n", none) ∧
    (generateTree newlineWorld "d").1.data.count '\n'
      ≠ newlineTree.countFiles + newlineTree.countDirs + 1 :=
  ⟨rfl, rfl, rfl, rfl, by decide⟩

/-- C4, as amended: the first line of the tree is the root path as given, and the line of
an entry `d` levels below the root (`d = 1` for an entry of the root) is `2 * (d - 1)`
spaces, `"- "`, `"[DIR] "` exactly for a directory, the entry's name and a newline. -/
theorem tree_line_format (w : World) (root : String) (t : Entries)
    (hs : Stat w root = .ok (.dir t)) (hl : t.listable = true) (hw : t.wellNamed = true) :
    generateTree w root =
      (root ++ "\n" ++ concat ((visits root 1 t).map (fun v =>
        spaces (2 * (v.level - 1)) ++ "- " ++ (if v.isDir then "[DIR] " else "") ++ v.name
          ++ "\n")), none) :=
  generateTree_dir w root t hs hl hw

/-- Witness of C4 as amended: the directory `proj` of the scenario. -/
theorem tree_line_format_witness :
    Stat projWorld "proj" = .ok (.dir projTree) ∧ projTree.listable = true ∧
    projTree.wellNamed = true ∧
    generateTree projWorld "proj" =
      ("proj" ++ "\n" ++ concat ((visits "proj" 1 projTree).map (fun v =>
        spaces (2 * (v.level - 1)) ++ "- " ++ (if v.isDir then "[DIR] " else "") ++ v.name
          ++ "\n")), none) :=
  ⟨rfl, rfl, rfl, tree_line_format projWorld "proj" projTree rfl rfl rfl⟩

/-- Counterexample to C4 as stated: in the scenario the entries of the root are not
indented, so the tree is not the one with `2 * d` spaces before an entry `d` levels
below the root. -/
theorem tree_line_format_fails :
    generateTree projWorld "proj" = ("proj\n- a.txt\n- [DIR] sub\n  - b.txt\n", none) ∧
    (generateTree projWorld "proj").1 ≠
      "proj" ++ "\n" ++ concat ((visits "proj" 1 projTree).map (fun v =>
        spaces (2 * v.level) ++ "- " ++ (if v.isDir then "[DIR] " else "") ++ v.name ++ "\n")) :=
  ⟨rfl, by decide⟩

/-- C5, as amended: among directories whose walk paths contain no newline and whose file
contents contain no empty line followed by `"--- "`, the contents section determines the
list of paths and contents in walk order: two such inputs with the same contents section
have the same list. -/
theorem contents_round_trip (w1 w2 : World) (p1 p2 : String) (t1 t2 : Entries)
    (hs1 : Stat w1 p1 = .ok (.dir t1)) (hs2 : Stat w2 p2 = .ok (.dir t2))
    (hr1 : t1.readable = true) (hr2 : t2.readable = true)
    (hp1 : splittable (filesOf (visits p1 1 t1)) = true)
    (hp2 : splittable (filesOf (visits p2 1 t2)) = true)
    (h : (Walk w1 p1 contentFn "File Contents:\n").1 = (Walk w2 p2 contentFn "File Contents:\n").1) :
    filesOf (visits p1 1 t1) = filesOf (visits p2 1 t2) := by
  rw [contentWalk_dir w1 p1 t1 _ hs1 hr1, contentWalk_dir w2 p2 t2 _ hs2 hr2] at h
  simp only at h
  apply concat_blocks_injective _ _ hp1 hp2
  apply String.ext
  have := congrArg String.data h
  simpa [String.data_append] using this

/-- Witness of C5 as amended: the scenario, and the scenario with a further file next to
`proj`. -/
theorem contents_round_trip_witness :
    Stat projWorld "proj" = .ok (.dir projTree) ∧
    Stat projWorldExtra "proj" = .ok (.dir projTree) ∧ projTree.readable = true ∧
    splittable (filesOf (visits "proj" 1 projTree)) = true ∧
    (Walk projWorld "proj" contentFn "File Contents:\n").1
      = (Walk projWorldExtra "proj" contentFn "File Contents:\n").1 ∧
    filesOf (visits "proj" 1 projTree) = filesOf (visits "proj" 1 projTree) :=
  ⟨rfl, rfl, rfl, by decide, rfl,
    contents_round_trip projWorld projWorldExtra "proj" "proj" projTree projTree rfl rfl rfl rfl
      (by decide) (by decide) rfl⟩

/-- Counterexample to C5 as stated: a directory with one file whose content looks like
the end of a block and the start of another, and a directory with two files, have
different lists of paths and contents and the same contents section, hence the same
snapshot. -/
theorem contents_round_trip_fails :
    filesOf (visits "d" 1 markerTree) ≠ filesOf (visits "d" 1 twoFilesTree) ∧
    (Walk markerWorld "d" contentFn "File Contents:\n").1
      = (Walk twoFilesWorld "d" contentFn "File Contents:\n").1 ∧
    ReadFile (main markerWorld "out.txt" false ["d"]).world "out.txt"
      = ReadFile (main twoFilesWorld "out.txt" false ["d"]).world "out.txt" :=
  ⟨by decide, rfl, rfl⟩

/-- C6, as amended: when the output file is not the input file and does not lie inside
the input directory, a second run with the same arguments leaves the filesystem, and so
the output file, exactly as the first run left it. -/
theorem rerun_same_output (w : World) (outputFile : String) (includeTree : Bool)
    (args : List String)
    (h : outputInsideInput w (inputPath args) outputFile = false) :
    (main (main w outputFile includeTree args).world outputFile includeTree args).world
      = (main w outputFile includeTree args).world ∧
    ReadFile (main (main w outputFile includeTree args).world outputFile includeTree args).world
        outputFile
      = ReadFile (main w outputFile includeTree args).world outputFile := by
  suffices hworld :
      (main (main w outputFile includeTree args).world outputFile includeTree args).world
        = (main w outputFile includeTree args).world by
    exact ⟨hworld, by rw [hworld]⟩
  have hm := main_eq_snapshot w outputFile includeTree args
  cases hsn : snapshot w includeTree (inputPath args) with
  | error msg =>
    rw [hsn] at hm
    simp only at hm
    have hw : (main w outputFile includeTree args).world = w := by rw [hm]
    rw [hw]
    exact hw
  | ok content =>
    rw [hsn] at hm
    simp only at hm
    cases hc : Create w outputFile with
    | error err =>
      rw [hc] at hm
      simp only at hm
      have hw : (main w outputFile includeTree args).world = w := by rw [hm]
      rw [hw]
      exact hw
    | ok pr =>
      obtain ⟨w1, file⟩ := pr
      rw [hc] at hm
      simp only at hm
      rw [hm]
      simp only
      have hstat : Stat (WriteString w1 file content) (inputPath args)
          = Stat w (inputPath args) := by
        cases hp : resolveFrom w (inputPath args) (splitSep (inputPath args).data) with
        | error err =>
          exfalso
          obtain ⟨info, hinfo, _, _⟩ := snapshot_start w includeTree (inputPath args) content hsn
          unfold Stat at hinfo
          rw [hp] at hinfo
          split at hinfo <;> simp at hinfo
        | ok loc =>
          unfold outputInsideInput at h
          rw [hp, hc] at h
          exact Stat_unchanged_outside w outputFile w1 file content _ loc hc hp h
      obtain ⟨w2, hc2, hw2⟩ := Create_again w outputFile w1 file content hc
      rw [main_eq_snapshot, snapshot_congr _ _ includeTree _ hstat, hsn]
      simp only [hc2]
      exact hw2 content

/-- Witness of C6 as amended: the scenario, with the output file next to `proj`. -/
theorem rerun_same_output_witness :
    outputInsideInput projWorld (inputPath ["proj"]) "out.txt" = false ∧
    ReadFile (main (main projWorld "out.txt" true ["proj"]).world "out.txt" true ["proj"]).world
        "out.txt"
      = ReadFile (main projWorld "out.txt" true ["proj"]).world "out.txt" :=
  ⟨rfl, (rerun_same_output projWorld "out.txt" true ["proj"] rfl).2⟩

/-- Counterexample to C6 as stated: with the default arguments in an empty working
directory, the output file `snapshot.txt` lies inside the input directory `.`; the second
run reads the snapshot of the first, and the two output files differ. -/
theorem rerun_same_output_fails :
    outputInsideInput emptyWorld (inputPath []) "snapshot.txt" = true ∧
    ReadFile (main emptyWorld "snapshot.txt" false []).world "snapshot.txt"
      = .ok "File Contents:\n" ∧
    ReadFile (main (main emptyWorld "snapshot.txt" false []).world "snapshot.txt" false []).world
        "snapshot.txt"
      = .ok "File Contents:\n--- snapshot.txt ---\nFile Contents:\n\n\n" ∧
    ReadFile (main (main emptyWorld "snapshot.txt" false []).world "snapshot.txt" false []).world
        "snapshot.txt"
      ≠ ReadFile (main emptyWorld "snapshot.txt" false []).world "snapshot.txt" := by
  refine ⟨rfl, rfl, rfl, ?_⟩
  have h1 : ReadFile (main emptyWorld "snapshot.txt" false []).world "snapshot.txt"
      = .ok "File Contents:\n" := rfl
  have h2 : ReadFile (main (main emptyWorld "snapshot.txt" false []).world "snapshot.txt"
      false []).world "snapshot.txt"
      = .ok "File Contents:\n--- snapshot.txt ---\nFile Contents:\n\n\n" := rfl
  rw [h1, h2]
  intro h
  exact absurd (Except.ok.inj h) (by decide)

/-- C7. No output on failure before the write step: when the stat of the input path
fails, or the tree walk, or the content walk (a file read in it included), or the read of
the input file, the run exits with code 1 and leaves the filesystem as it was. -/
theorem no_output_on_failure (w : World) (outputFile : String) (includeTree : Bool)
    (args : List String)
    (h : (∃ e, Stat w (inputPath args) = .error e) ∨
      (∃ info s e, Stat w (inputPath args) = .ok info ∧ includeTree = true ∧
        info.IsDir = true ∧ generateTree w (inputPath args) = (s, some e)) ∨
      (∃ info c s e, Stat w (inputPath args) = .ok info ∧ info.IsDir = true ∧
        Walk w (inputPath args) contentFn c = (s, some e)) ∨
      (∃ info e, Stat w (inputPath args) = .ok info ∧ info.IsDir = false ∧
        ReadFile w (inputPath args) = .error e)) :
    (main w outputFile includeTree args).exit = 1 ∧
    (main w outputFile includeTree args).world = w := by
  have hfail : ∃ msg, snapshot w includeTree (inputPath args) = .error msg := by
    unfold snapshot
    rcases h with ⟨e, he⟩ | ⟨info, s, e, hs, ht, hd, hg⟩ | ⟨info, c, s, e, hs, hd, hwk⟩ |
      ⟨info, e, hs, hd, hr⟩
    · rw [he]; exact ⟨_, rfl⟩
    · rw [hs]
      simp only [ht, hd, Bool.and_self, if_true, hg]
      exact ⟨_, rfl⟩
    · rw [hs]
      simp only [hd, Bool.and_true, if_true]
      have herr : ∀ c', ∃ s', Walk w (inputPath args) contentFn c' = (s', some e) := by
        intro c'
        have := Walk_contentFn_err w (inputPath args) c' c
        rw [hwk] at this
        exact ⟨(Walk w (inputPath args) contentFn c').1, Prod.ext rfl this⟩
      cases includeTree with
      | false =>
        simp only [Bool.false_eq_true, if_false]
        obtain ⟨s', hs'⟩ := herr ("" ++ "File Contents:\n")
        rw [hs']
        exact ⟨_, rfl⟩
      | true =>
        simp only [if_true]
        cases hg : generateTree w (inputPath args) with
        | mk tr eo =>
          cases eo with
          | some err => exact ⟨_, rfl⟩
          | none =>
            simp only
            obtain ⟨s', hs'⟩ := herr ("" ++ "Directory Tree:\n" ++ tr ++ "\n\n" ++ "File Contents:\n")
            rw [hs']
            exact ⟨_, rfl⟩
    · rw [hs]
      simp only [hd, Bool.and_false, Bool.false_eq_true, if_false, hr]
      exact ⟨_, rfl⟩
  obtain ⟨msg, hmsg⟩ := hfail
  rw [main_eq_snapshot, hmsg]
  exact ⟨rfl, rfl⟩

/-- Witness of C7: an input path that does not exist, a subdirectory that cannot be
listed in the tree walk, and a file that cannot be read in the content walk. -/
theorem no_output_on_failure_witness :
    ((∃ e, Stat projWorld (inputPath ["missing"]) = .error e) ∧
      (main projWorld "out.txt" true ["missing"]).exit = 1 ∧
      (main projWorld "out.txt" true ["missing"]).world = projWorld) ∧
    (generateTree lockedWorld (inputPath ["proj"]) = ("proj\n- a.txt\n", some .permission) ∧
      (main lockedWorld "out.txt" true ["proj"]).exit = 1 ∧
      (main lockedWorld "out.txt" true ["proj"]).world = lockedWorld) ∧
    (Walk lockedWorld (inputPath ["proj"]) contentFn "" = ("", some .permission) ∧
      (main lockedWorld "out.txt" false ["proj"]).exit = 1 ∧
      (main lockedWorld "out.txt" false ["proj"]).world = lockedWorld) :=
  ⟨⟨⟨.notExist, rfl⟩,
      no_output_on_failure projWorld "out.txt" true ["missing"] (Or.inl ⟨.notExist, rfl⟩)⟩,
    ⟨rfl, no_output_on_failure lockedWorld "out.txt" true ["proj"]
      (Or.inr (Or.inl ⟨_, _, _, rfl, rfl, rfl, rfl⟩))⟩,
    ⟨rfl, no_output_on_failure lockedWorld "out.txt" false ["proj"]
      (Or.inr (Or.inr (Or.inl ⟨_, "", _, _, rfl, rfl, rfl⟩)))⟩⟩

/-- C8, as amended: in the scenario the snapshot is the tree block with `a.txt` before
`sub`, the entries of `proj` unindented and `b.txt` below `sub`, two empty lines, and the
contents section with the blocks of `proj/a.txt` and `proj/sub/b.txt`. -/
theorem scenario_snapshot :
    projTree.sorted = true ∧
    ReadFile (main projWorld "out.txt" true ["proj"]).world "out.txt" =
      .ok ("Directory Tree:\nproj\n- a.txt\n- [DIR] sub\n  - b.txt\n\n\n" ++
        "File Contents:\n--- proj/a.txt ---\nhi\n\n--- proj/sub/b.txt ---\nyo\n\n") :=
  ⟨rfl, rfl⟩

/-- Counterexample to C8 as stated: whichever of the two entries the walk lists first,
the snapshot of the scenario does not begin with the tree block of the claim, in which
the two entries of `proj` are indented by two spaces. -/
theorem scenario_snapshot_fails :
    (¬ ∃ r, ReadFile (main projWorld "out.txt" true ["proj"]).world "out.txt" =
      .ok ("Directory Tree:\nproj\n  - [DIR] sub\n  - a.txt\n" ++ r)) ∧
    (¬ ∃ r, ReadFile (main projWorld "out.txt" true ["proj"]).world "out.txt" =
      .ok ("Directory Tree:\nproj\n  - a.txt\n  - [DIR] sub\n" ++ r)) ∧
    (¬ ∃ r, ReadFile (main projWorldRev "out.txt" true ["proj"]).world "out.txt" =
      .ok ("Directory Tree:\nproj\n  - [DIR] sub\n  - a.txt\n" ++ r)) ∧
    (¬ ∃ r, ReadFile (main projWorldRev "out.txt" true ["proj"]).world "out.txt" =
      .ok ("Directory Tree:\nproj\n  - a.txt\n  - [DIR] sub\n" ++ r)) := by
  have h1 : ReadFile (main projWorld "out.txt" true ["proj"]).world "out.txt" =
      .ok ("Directory Tree:\nproj\n- a.txt\n- [DIR] sub\n  - b.txt\n\n\n" ++
        "File Contents:\n--- proj/a.txt ---\nhi\n\n--- proj/sub/b.txt ---\nyo\n\n") := rfl
  have h2 : ReadFile (main projWorldRev "out.txt" true ["proj"]).world "out.txt" =
      .ok ("Directory Tree:\nproj\n- [DIR] sub\n  - b.txt\n- a.txt\n\n\n" ++
        "File Contents:\n--- proj/sub/b.txt ---\nyo\n\n--- proj/a.txt ---\nhi\n\n") := rfl
  rw [h1, h2]
  refine ⟨?_, ?_, ?_, ?_⟩ <;>
  · rintro ⟨r, hr⟩
    have := congrArg String.data (Except.ok.inj hr)
    simp [String.data_append] at this

/-- C9. Tree block presence: after a successful run the output file begins with
`"Directory Tree:\n"` if and only if the tree flag is set and the input path is a
directory, and in every other case it begins with `"File Contents:\n"`. -/
theorem tree_block_presence (w : World) (outputFile : String) (includeTree : Bool)
    (args : List String) (h : (main w outputFile includeTree args).exit = 0) :
    ∃ info content, Stat w (inputPath args) = .ok info ∧
      ReadFile (main w outputFile includeTree args).world outputFile = .ok content ∧
      ((∃ r, content = "Directory Tree:\n" ++ r) ↔ (includeTree = true ∧ info.IsDir = true)) ∧
      (¬ (includeTree = true ∧ info.IsDir = true) → ∃ r, content = "File Contents:\n" ++ r) := by
  rw [main_eq_snapshot] at h ⊢
  cases hsn : snapshot w includeTree (inputPath args) with
  | error msg =>
    rw [hsn] at h
    exact absurd h (Nat.succ_ne_zero 0)
  | ok content =>
    rw [hsn] at h
    simp only at h ⊢
    cases hc : Create w outputFile with
    | error err =>
      rw [hc] at h
      exact absurd h (Nat.succ_ne_zero 0)
    | ok pr =>
      obtain ⟨w1, file⟩ := pr
      simp only
      obtain ⟨info, hinfo, hyes, hno⟩ := snapshot_start w includeTree (inputPath args) content hsn
      refine ⟨info, content, hinfo, read_after_write w outputFile w1 file content hc, ⟨?_, hyes⟩, hno⟩
      rintro ⟨r, hr⟩
      by_contra hcon
      obtain ⟨r2, hr2⟩ := hno hcon
      rw [hr2] at hr
      exact header_ne r2 r hr

/-- Witness of C9: the scenario. -/
theorem tree_block_presence_witness :
    (main projWorld "out.txt" true ["proj"]).exit = 0 ∧
    ∃ info content, Stat projWorld (inputPath ["proj"]) = .ok info ∧
      ReadFile (main projWorld "out.txt" true ["proj"]).world "out.txt" = .ok content ∧
      ((∃ r, content = "Directory Tree:\n" ++ r) ↔ (true = true ∧ info.IsDir = true)) ∧
      (¬ (true = true ∧ info.IsDir = true) → ∃ r, content = "File Contents:\n" ++ r) :=
  ⟨rfl, tree_block_presence projWorld "out.txt" true ["proj"] rfl⟩

/-- C10, as amended: a directory snapshot taken with the tree flag set is
`"Directory Tree:\n" ++ T ++ "\n\n" ++ "File Contents:\n" ++ B` with `T` the output of
`generateTree`, which ends in a newline, and `B` the content blocks: two empty lines
separate the tree listing from the `File Contents:` line. -/
theorem section_layout (w : World) (outputFile p : String) (rest : List String) (t : Entries)
    (hs : Stat w p = .ok (.dir t)) (hr : t.readable = true) (hw : t.wellNamed = true)
    (hc : creatable w outputFile = true) :
    ReadFile (main w outputFile true (p :: rest)).world outputFile
      = .ok ("Directory Tree:\n" ++ (generateTree w p).1 ++ "\n\n" ++ "File Contents:\n"
          ++ concat ((filesOf (visits p 1 t)).map block)) ∧
    (generateTree w p).1.data.getLast? = some '\n' := by
  constructor
  · rw [main_dir w outputFile p rest true t hs hr hw]
    have := (finish_ok w outputFile
      ((if true = true then "Directory Tree:\n" ++ (generateTree w p).1 ++ "\n\n" else "")
        ++ ("File Contents:\n" ++ concat ((filesOf (visits p 1 t)).map block))) hc).2
    simp only [if_true] at this ⊢
    rw [this]
    simp only [String.append_assoc]
  · rw [generateTree_dir w p t hs (readable_listable t hr) hw]
    apply concat_lines_last
    simp [String.data_append]

/-- Witness of C10 as amended: the scenario. -/
theorem section_layout_witness :
    Stat projWorld "proj" = .ok (.dir projTree) ∧ projTree.readable = true ∧
    projTree.wellNamed = true ∧ creatable projWorld "out.txt" = true ∧
    ReadFile (main projWorld "out.txt" true ["proj"]).world "out.txt"
      = .ok ("Directory Tree:\n" ++ (generateTree projWorld "proj").1 ++ "\n\n"
          ++ "File Contents:\n" ++ concat ((filesOf (visits "proj" 1 projTree)).map block)) :=
  ⟨rfl, rfl, rfl, rfl, (section_layout projWorld "out.txt" "proj" [] projTree rfl rfl rfl rfl).1⟩

/-- Counterexample to C10 as stated: in the scenario the snapshot is not
`"Directory Tree:\n" ++ T ++ "\n" ++ "File Contents:\n" ++ B`, with one empty line
between the tree listing and the `File Contents:` line. -/
theorem section_layout_fails :
    ReadFile (main projWorld "out.txt" true ["proj"]).world "out.txt"
      ≠ .ok ("Directory Tree:\n" ++ (generateTree projWorld "proj").1 ++ "\n" ++ "File Contents:\n"
          ++ concat ((filesOf (visits "proj" 1 projTree)).map block)) := by
  have h1 : ReadFile (main projWorld "out.txt" true ["proj"]).world "out.txt" =
      .ok ("Directory Tree:\nproj\n- a.txt\n- [DIR] sub\n  - b.txt\n\n\n" ++
        "File Contents:\n--- proj/a.txt ---\nhi\n\n--- proj/sub/b.txt ---\nyo\n\n") := rfl
  have h2 : "Directory Tree:\n" ++ (generateTree projWorld "proj").1 ++ "\n" ++ "File Contents:\n"
          ++ concat ((filesOf (visits "proj" 1 projTree)).map block) =
      "Directory Tree:\nproj\n- a.txt\n- [DIR] sub\n  - b.txt\n\n" ++
        "File Contents:\n--- proj/a.txt ---\nhi\n\n--- proj/sub/b.txt ---\nyo\n\n" := rfl
  rw [h1, h2]
  intro h
  exact absurd (Except.ok.inj h) (by decide)

end CodeSnap
